import Mathlib

/-!
Verification of the ClientService command-execution and result-reporting
pipeline (`src/clientservice.py`).

Python strings are modelled as `List Char` (a Python `str` is a sequence of
Unicode code points).  Effects are modelled by explicit oracles:

* spawning a shell command (`subprocess.run`) is an oracle
  `run : List Char → ExecResult` describing, for the resolved command line,
  whether the process exited (and with which return code), hit the 15 second
  timeout (`subprocess.TimeoutExpired`), or failed to start/execute
  (any other exception);
* one HTTP exchange performed by `urllib` is an oracle
  `net : List Char → List Char → ExchangeResult` (url, method);
* `json.loads` is an oracle `loads : List Char → Option (List Char)`
  (`none` models a raised `JSONDecodeError`).

All functions are total Lean translations of the corresponding Python code.
-/

namespace ClientService

/-- Python `str` as a sequence of characters. -/
abbrev PyStr := List Char

/-- Fueled scanner implementing Python `str.replace` for a non-empty
pattern; the fuel is an upper bound on the length of the string still to be
scanned, so with fuel `s.length` the zero-fuel case is unreachable. -/
def replaceAllGo (pat rep : PyStr) : Nat → PyStr → PyStr
  | _, [] => []
  | 0, s => s
  | fuel + 1, c :: s' =>
    if pat.isPrefixOf (c :: s') then
      rep ++ replaceAllGo pat rep fuel ((c :: s').drop pat.length)
    else
      c :: replaceAllGo pat rep fuel s'

/-- Python `str.replace(pat, rep)`: scan left to right, replacing each
non-overlapping occurrence of `pat` by `rep`.  The Python behaviour for an
empty pattern (interspersing `rep`) is never exercised by the program, whose
patterns are the non-empty placeholder tokens; the model returns the string
unchanged in that case. -/
def replaceAll (s pat rep : PyStr) : PyStr :=
  if pat = [] then s else replaceAllGo pat rep s.length s

theorem replaceAllGo_nil (pat rep : PyStr) (fuel : Nat) :
    replaceAllGo pat rep fuel [] = [] := by
  cases fuel <;> rfl

theorem replaceAllGo_congr (pat rep : PyStr) (hpat : pat ≠ []) :
    ∀ fuel₁ fuel₂ s, s.length ≤ fuel₁ → s.length ≤ fuel₂ →
      replaceAllGo pat rep fuel₁ s = replaceAllGo pat rep fuel₂ s := by
  intro fuel₁
  induction fuel₁ with
  | zero =>
    intro fuel₂ s h₁ _
    have : s = [] := List.length_eq_zero.mp (Nat.le_zero.mp h₁)
    subst this
    rw [replaceAllGo_nil, replaceAllGo_nil]
  | succ f ih =>
    intro fuel₂ s h₁ h₂
    cases s with
    | nil => rw [replaceAllGo_nil, replaceAllGo_nil]
    | cons c s' =>
      cases fuel₂ with
      | zero => simp at h₂
      | succ f₂ =>
        simp only [replaceAllGo]
        have hplen : 0 < pat.length := List.length_pos.mpr hpat
        simp only [List.length_cons] at h₁ h₂
        by_cases hp : pat.isPrefixOf (c :: s') = true
        · rw [if_pos hp, if_pos hp]
          congr 1
          apply ih
          · simp only [List.length_drop, List.length_cons]; omega
          · simp only [List.length_drop, List.length_cons]; omega
        · rw [if_neg hp, if_neg hp]
          congr 1
          apply ih
          · omega
          · omega

theorem replaceAll_nil (pat rep : PyStr) : replaceAll [] pat rep = [] := by
  unfold replaceAll
  split
  · rfl
  · rfl

theorem replaceAll_cons (pat rep : PyStr) (hpat : pat ≠ []) (c : Char)
    (s' : PyStr) :
    replaceAll (c :: s') pat rep =
      if pat.isPrefixOf (c :: s') then
        rep ++ replaceAll ((c :: s').drop pat.length) pat rep
      else
        c :: replaceAll s' pat rep := by
  unfold replaceAll
  rw [if_neg hpat, if_neg hpat, if_neg hpat]
  simp only [List.length_cons, replaceAllGo]
  have hplen : 0 < pat.length := List.length_pos.mpr hpat
  by_cases hp : pat.isPrefixOf (c :: s') = true
  · rw [if_pos hp, if_pos hp]
    congr 1
    apply replaceAllGo_congr pat rep hpat
    · simp only [List.length_drop, List.length_cons]; omega
    · exact Nat.le_refl _
  · rw [if_neg hp, if_neg hp]

/-- Python `str.zfill(width)`: left-pad with `'0'` up to `width`, keeping a
leading sign character in place. -/
def zfill (s : PyStr) (width : Nat) : PyStr :=
  if width ≤ s.length then s
  else
    match s with
    | [] => List.replicate width '0'
    | c :: rest =>
      if c = '+' ∨ c = '-' then
        c :: (List.replicate (width - s.length) '0' ++ rest)
      else
        List.replicate (width - s.length) '0' ++ s

/-- The static substitution table of `sanitize_execute_command`
(`src/clientservice.py` lines 84–89), in Python dict insertion order.
`gid` is the already zero-padded group id. -/
def placeholders (gid : PyStr) : List (PyStr × PyStr) :=
  [ ("%GRUP%".data, "grup".data ++ gid),
    ("%USER%".data, "guille".data),
    ("%HOME%".data, "/home/guille".data),
    ("%SSH_CONFIG%".data, "/home/guill/.ssh/config".data) ]

/-- The placeholder substitution loop of `sanitize_execute_command`
(lines 91–92): apply `str.replace` for each table entry in order. -/
def resolve_placeholders (cmd : PyStr) (gid : PyStr) : PyStr :=
  (placeholders gid).foldl (fun c kv => replaceAll c kv.1 kv.2) cmd

/-- Outcome of one `subprocess.run(s_cmd, shell=True, timeout=15)` call:
the process completed with a return code, raised
`subprocess.TimeoutExpired`, or raised any other exception. -/
inductive ExecResult where
  | completed (returncode : Int)
  | timedOut
  | failed
  deriving Repr, DecidableEq

/-- `sanitize_execute_command` (lines 66–108).  `cmd` is
`task.get("command")`, so it may be `None` (`none`) as well as empty; the
Python guard `if not cmd` covers both.  `run` is the process oracle; it is
consulted only when a non-empty command is present. -/
def sanitize_execute_command (cmd : Option PyStr) (gid : PyStr)
    (run : PyStr → ExecResult) : PyStr :=
  match cmd with
  | none => "Pending".data
  | some c =>
    if c = [] then "Pending".data
    else
      let s_cmd := resolve_placeholders c gid
      match run s_cmd with
      | .completed rc => if rc = 0 then "OK".data else "Pending".data
      | .timedOut => "Timeout".data
      | .failed => "Error".data

/-- A task object of the manifest: the optional `command` string, the
`status` slot written by the executor, and all remaining (opaque) fields. -/
structure Task where
  command : Option PyStr
  status : Option PyStr
  extra : List (PyStr × PyStr)
  deriving Repr, DecidableEq

/-- A zone object: its optional `tasks` list and all remaining fields. -/
structure Zone where
  tasks : Option (List Task)
  extra : List (PyStr × PyStr)
  deriving Repr, DecidableEq

/-- The root manifest object: its optional `zones` list and all remaining
fields. -/
structure Manifest where
  zones : Option (List Zone)
  extra : List (PyStr × PyStr)
  deriving Repr, DecidableEq

/-- `collections.Counter` restricted to what the program does with it:
a total count per status string, zero-initialised. -/
def Counts := PyStr → Nat

/-- `Counter()`. -/
def Counts.zero : Counts := fun _ => 0

/-- `counts[result] += 1`. -/
def Counts.bump (c : Counts) (k : PyStr) : Counts :=
  fun s => if s = k then c s + 1 else c s

/-- The inner loop body of `execute_commands` (lines 58–61): run the task's
command, write the status back, count the result. -/
def runTask (run : PyStr → ExecResult) (gid : PyStr) (t : Task) (c : Counts) :
    Task × Counts :=
  let result := sanitize_execute_command t.command gid run
  ({ t with status := some result }, c.bump result)

/-- The inner loop of `execute_commands` over one zone's task list,
threading the counter in order. -/
def runTasks (run : PyStr → ExecResult) (gid : PyStr) :
    List Task → Counts → List Task × Counts
  | [], c => ([], c)
  | t :: ts, c =>
    let (t', c') := runTask run gid t c
    let (ts', c'') := runTasks run gid ts c'
    (t' :: ts', c'')

/-- One iteration of the outer loop of `execute_commands`: the zone object
itself is untouched except that its task list (if present) is processed. -/
def runZone (run : PyStr → ExecResult) (gid : PyStr) (z : Zone) (c : Counts) :
    Zone × Counts :=
  match z.tasks with
  | none => (z, c)
  | some ts =>
    let (ts', c') := runTasks run gid ts c
    ({ z with tasks := some ts' }, c')

/-- The outer loop of `execute_commands` over the zone list. -/
def runZones (run : PyStr → ExecResult) (gid : PyStr) :
    List Zone → Counts → List Zone × Counts
  | [], c => ([], c)
  | z :: zs, c =>
    let (z', c') := runZone run gid z c
    let (zs', c'') := runZones run gid zs c'
    (z' :: zs', c'')

/-- `execute_commands` (lines 41–63): `zones = commands.get("zones", [])`,
`sanitized_id = gid.zfill(2)`, then the nested loops.  When `zones` is
absent the loop body never runs and the input object is returned as is. -/
def execute_commands (m : Manifest) (gid : PyStr)
    (run : PyStr → ExecResult) : Manifest × Counts :=
  let sanitized_id := zfill gid 2
  match m.zones with
  | none => (m, Counts.zero)
  | some zs =>
    let (zs', counts) := runZones run sanitized_id zs Counts.zero
    ({ m with zones := some zs' }, counts)

/-- Total number of tasks in a manifest (absent lists count as empty). -/
def totalTasks (m : Manifest) : Nat :=
  ((m.zones.getD []).map (fun z => (z.tasks.getD []).length)).sum

/-- Sum of the four status counters reported by the program. -/
def sum4 (c : Counts) : Nat :=
  c "OK".data + c "Pending".data + c "Timeout".data + c "Error".data

example :
    sanitize_execute_command (some "echo %GRUP%".data) (zfill "5".data 2)
      (fun _ => .completed 0) = "OK".data := by decide

example : resolve_placeholders "echo %GRUP%".data (zfill "5".data 2)
    = "echo grup05".data := by decide

example : zfill "-".data 2 = "-0".data := by decide

theorem sanitize_status_cases (cmd : Option PyStr) (gid : PyStr)
    (run : PyStr → ExecResult) :
    sanitize_execute_command cmd gid run = "OK".data ∨
    sanitize_execute_command cmd gid run = "Pending".data ∨
    sanitize_execute_command cmd gid run = "Timeout".data ∨
    sanitize_execute_command cmd gid run = "Error".data := by
  cases cmd with
  | none => right; left; rfl
  | some c =>
    by_cases hc : c = []
    · subst hc; right; left; rfl
    · cases h : run (resolve_placeholders c gid) with
      | completed rc =>
        by_cases hrc : rc = 0
        · left; simp [sanitize_execute_command, hc, h, hrc]
        · right; left; simp [sanitize_execute_command, hc, h, hrc]
      | timedOut =>
        right; right; left; simp [sanitize_execute_command, hc, h]
      | failed =>
        right; right; right; simp [sanitize_execute_command, hc, h]

theorem sum4_bump (c : Counts) (st : PyStr)
    (h : st = "OK".data ∨ st = "Pending".data ∨ st = "Timeout".data ∨
      st = "Error".data) :
    sum4 (c.bump st) = sum4 c + 1 := by
  rcases h with h | h | h | h <;> subst h <;>
    simp [sum4, Counts.bump] <;> omega

theorem runTasks_sum (run : PyStr → ExecResult) (gid : PyStr) :
    ∀ (ts : List Task) (c : Counts),
      sum4 (runTasks run gid ts c).2 = sum4 c + ts.length := by
  intro ts
  induction ts with
  | nil => intro c; rfl
  | cons t ts ih =>
    intro c
    simp only [runTasks, runTask]
    rw [ih]
    rw [sum4_bump _ _ (sanitize_status_cases _ _ _)]
    simp only [List.length_cons]
    omega

theorem runZones_sum (run : PyStr → ExecResult) (gid : PyStr) :
    ∀ (zs : List Zone) (c : Counts),
      sum4 (runZones run gid zs c).2 =
        sum4 c + (zs.map (fun z => (z.tasks.getD []).length)).sum := by
  intro zs
  induction zs with
  | nil => intro c; simp [runZones]
  | cons z zs ih =>
    intro c
    simp only [runZones, runZone]
    cases hz : z.tasks with
    | none => rw [ih]; simp [hz]
    | some ts =>
      simp only
      rw [ih, runTasks_sum]
      simp [hz]
      omega

/-- C2: after a batch run, the four status counters sum to the total number
of tasks across all zones; each task contributes exactly one increment to
exactly one counter (the count sum grows by exactly the task count, and the
counters, being `Nat`-valued and zero-initialised like a fresh
`collections.Counter`, are non-negative by construction). -/
theorem C2_counts_partition_tasks (m : Manifest) (gid : PyStr)
    (run : PyStr → ExecResult) :
    sum4 (execute_commands m gid run).2 = totalTasks m := by
  obtain ⟨zo, ex⟩ := m
  cases zo with
  | none => simp [execute_commands, totalTasks, Counts.zero, sum4]
  | some zs =>
    simp only [execute_commands, totalTasks, Option.getD_some]
    rw [runZones_sum]
    simp [Counts.zero, sum4]

/-- C1: the Command Runner's four-way classification.  The first conjunct
also expresses "no process is spawned" for an absent/empty command: the
result does not depend on the process oracle at all. -/
theorem C1_runner_classification (cmd : Option PyStr) (gid : PyStr)
    (run : PyStr → ExecResult) :
    ((cmd = none ∨ cmd = some []) →
      sanitize_execute_command cmd gid run = "Pending".data ∧
      ∀ run₂, sanitize_execute_command cmd gid run₂ =
        sanitize_execute_command cmd gid run) ∧
    (∀ c, cmd = some c → c ≠ [] →
      (run (resolve_placeholders c gid) = .completed 0 →
        sanitize_execute_command cmd gid run = "OK".data) ∧
      (∀ rc, run (resolve_placeholders c gid) = .completed rc → rc ≠ 0 →
        sanitize_execute_command cmd gid run = "Pending".data) ∧
      (run (resolve_placeholders c gid) = .timedOut →
        sanitize_execute_command cmd gid run = "Timeout".data) ∧
      (run (resolve_placeholders c gid) = .failed →
        sanitize_execute_command cmd gid run = "Error".data)) := by
  constructor
  · intro h
    rcases h with h | h <;> subst h
    · exact ⟨rfl, fun run₂ => rfl⟩
    · constructor
      · simp [sanitize_execute_command]
      · intro run₂; simp [sanitize_execute_command]
  · intro c hc hne
    subst hc
    simp only [sanitize_execute_command, if_neg hne]
    refine ⟨?_, ?_, ?_, ?_⟩
    · intro h; rw [h]; rfl
    · intro rc h hrc; rw [h]; simp [if_neg hrc]
    · intro h; rw [h]
    · intro h; rw [h]

theorem C1_runner_classification_witness :
    sanitize_execute_command none [] (fun _ => .failed) = "Pending".data ∧
    sanitize_execute_command (some ['x']) [] (fun _ => .completed 0)
      = "OK".data ∧
    sanitize_execute_command (some ['x']) [] (fun _ => .completed 3)
      = "Pending".data ∧
    sanitize_execute_command (some ['x']) [] (fun _ => .timedOut)
      = "Timeout".data ∧
    sanitize_execute_command (some ['x']) [] (fun _ => .failed)
      = "Error".data := by
  refine ⟨?_, ?_, ?_, ?_, ?_⟩
  · exact ((C1_runner_classification none [] (fun _ => .failed)).1
      (Or.inl rfl)).1
  · exact ((C1_runner_classification (some ['x']) []
      (fun _ => .completed 0)).2 ['x'] rfl (by decide)).1 rfl
  · exact ((C1_runner_classification (some ['x']) []
      (fun _ => .completed 3)).2 ['x'] rfl (by decide)).2.1 3 rfl (by decide)
  · exact ((C1_runner_classification (some ['x']) []
      (fun _ => .timedOut)).2 ['x'] rfl (by decide)).2.2.1 rfl
  · exact ((C1_runner_classification (some ['x']) []
      (fun _ => .failed)).2 ['x'] rfl (by decide)).2.2.2 rfl

/-- Per-task frame relation: everything but `status` is unchanged, and
`status` is present afterwards. -/
def TaskFrame (t t' : Task) : Prop :=
  t'.command = t.command ∧ t'.extra = t.extra ∧ ∃ s, t'.status = some s

/-- Per-zone frame relation: the zone's other fields are unchanged and its
task list (when present) is related task by task, in order. -/
def ZoneFrame (z z' : Zone) : Prop :=
  z'.extra = z.extra ∧
  ((z.tasks = none ∧ z' = z) ∨
    (∃ ts ts', z.tasks = some ts ∧ z'.tasks = some ts' ∧
      List.Forall₂ TaskFrame ts ts'))

theorem runTasks_frame (run : PyStr → ExecResult) (gid : PyStr) :
    ∀ (ts : List Task) (c : Counts),
      List.Forall₂ TaskFrame ts (runTasks run gid ts c).1 := by
  intro ts
  induction ts with
  | nil => intro c; exact List.Forall₂.nil
  | cons t ts ih =>
    intro c
    simp only [runTasks, runTask]
    exact List.Forall₂.cons ⟨rfl, rfl, _, rfl⟩ (ih _)

theorem runZones_frame (run : PyStr → ExecResult) (gid : PyStr) :
    ∀ (zs : List Zone) (c : Counts),
      List.Forall₂ ZoneFrame zs (runZones run gid zs c).1 := by
  intro zs
  induction zs with
  | nil => intro c; exact List.Forall₂.nil
  | cons z zs ih =>
    intro c
    simp only [runZones]
    refine List.Forall₂.cons ?_ (ih _)
    unfold runZone
    cases hz : z.tasks with
    | none => exact ⟨rfl, Or.inl ⟨hz, rfl⟩⟩
    | some ts => exact ⟨rfl, Or.inr ⟨ts, _, hz, rfl, runTasks_frame _ _ _ _⟩⟩

/-- C3: the Batch Executor never removes, reorders or adds zones or tasks;
it only writes each task's `status`.  The zone list (when present) is
related element by element, in order; all other fields of the manifest, the
zones and the tasks are unchanged, and every processed task carries a
`status`.  When `zones` is absent the manifest is returned untouched. -/
theorem C3_executor_frame (m : Manifest) (gid : PyStr)
    (run : PyStr → ExecResult) :
    (m.zones = none → (execute_commands m gid run).1 = m) ∧
    (execute_commands m gid run).1.extra = m.extra ∧
    Option.Rel (List.Forall₂ ZoneFrame) m.zones
      (execute_commands m gid run).1.zones := by
  obtain ⟨zo, ex⟩ := m
  cases zo with
  | none =>
    exact ⟨fun _ => rfl, rfl, Option.Rel.none⟩
  | some zs =>
    refine ⟨fun h => absurd h (by simp), rfl, ?_⟩
    exact Option.Rel.some (runZones_frame _ _ _ _)

theorem C3_executor_frame_witness :
    (execute_commands ⟨none, [("a".data, "b".data)]⟩ "7".data
      (fun _ => .failed)).1 = ⟨none, [("a".data, "b".data)]⟩ :=
  (C3_executor_frame ⟨none, [("a".data, "b".data)]⟩ "7".data
    (fun _ => .failed)).1 rfl

theorem runZones_all_none (run : PyStr → ExecResult) (gid : PyStr) :
    ∀ (zs : List Zone), (∀ z ∈ zs, z.tasks = none) →
      ∀ c, runZones run gid zs c = (zs, c) := by
  intro zs
  induction zs with
  | nil => intro _ c; rfl
  | cons z zs ih =>
    intro h c
    have hz : z.tasks = none := h z (List.mem_cons_self _ _)
    have hrest : ∀ z ∈ zs, z.tasks = none :=
      fun z hmem => h z (List.mem_cons_of_mem _ hmem)
    simp only [runZones, runZone, hz]
    rw [ih hrest c]

/-- C8: permissive parsing.  When `zones` is absent the executor returns the
input object and a fresh zero counter; likewise when every present zone has
no `tasks` entry.  The model is a total function, so no error is raised. -/
theorem C8_missing_structure_is_empty (m : Manifest) (gid : PyStr)
    (run : PyStr → ExecResult) :
    (m.zones = none → execute_commands m gid run = (m, Counts.zero)) ∧
    (∀ zs, m.zones = some zs → (∀ z ∈ zs, z.tasks = none) →
      execute_commands m gid run = (m, Counts.zero)) := by
  obtain ⟨zo, ex⟩ := m
  constructor
  · intro h
    cases zo with
    | none => rfl
    | some zs => exact absurd h (by simp)
  · intro zs hzs hall
    cases zo with
    | none => exact absurd hzs (by simp)
    | some zs₀ =>
      have hz : zs₀ = zs := by simpa using hzs
      subst hz
      simp only [execute_commands]
      rw [runZones_all_none run (zfill gid 2) zs₀ hall Counts.zero]

theorem C8_missing_structure_is_empty_witness :
    execute_commands ⟨none, []⟩ "7".data (fun _ => .failed)
      = (⟨none, []⟩, Counts.zero) ∧
    execute_commands ⟨some [⟨none, [("name".data, "z1".data)]⟩], []⟩
        "7".data (fun _ => .failed)
      = (⟨some [⟨none, [("name".data, "z1".data)]⟩], []⟩, Counts.zero) := by
  constructor
  · exact (C8_missing_structure_is_empty ⟨none, []⟩ "7".data
      (fun _ => .failed)).1 rfl
  · exact (C8_missing_structure_is_empty
      ⟨some [⟨none, [("name".data, "z1".data)]⟩], []⟩ "7".data
      (fun _ => .failed)).2 _ rfl
      (by intro z hz; simp only [List.mem_singleton] at hz; subst hz; rfl)

theorem isPrefixOf_true {l₁ l₂ : PyStr} : l₁.isPrefixOf l₂ = true ↔ l₁ <+: l₂ :=
  List.isPrefixOf_iff_prefix

theorem nil_ifx {l : PyStr} : [] <:+: l :=
  List.nil_infix

theorem nil_pfx (l : PyStr) : [] <+: l :=
  ⟨l, rfl⟩

theorem replaceAll_empty_pat (s rep : PyStr) : replaceAll s [] rep = s := by
  unfold replaceAll
  rw [if_pos rfl]

theorem ifx_cons_decomp {k t : PyStr} {c : Char} (h : k <:+: c :: t) :
    k <+: c :: t ∨ k <:+: t := by
  obtain ⟨u, hku, hut⟩ := List.infix_iff_prefix_suffix.mp h
  rcases List.suffix_cons_iff.mp hut with h₁ | h₁
  · subst h₁; exact Or.inl hku
  · exact Or.inr (List.infix_iff_prefix_suffix.mpr ⟨u, hku, h₁⟩)

theorem pfx_append_decomp {p y : PyStr} :
    ∀ x, p <+: x ++ y → p <+: x ∨ ∃ q, p = x ++ q ∧ q <+: y := by
  intro x
  induction x generalizing p with
  | nil => intro h; exact Or.inr ⟨p, rfl, h⟩
  | cons a x' ih =>
    intro h
    cases p with
    | nil => exact Or.inl (nil_pfx _)
    | cons b p' =>
      rw [List.cons_append] at h
      obtain ⟨hb, hp'⟩ := List.cons_prefix_cons.mp h
      subst hb
      rcases ih hp' with h₁ | ⟨q, hq, hqy⟩
      · exact Or.inl (List.cons_prefix_cons.mpr ⟨rfl, h₁⟩)
      · subst hq; exact Or.inr ⟨q, rfl, hqy⟩

theorem ifx_append_decomp {k y : PyStr} :
    ∀ x, k <:+: x ++ y →
      k <:+: x ∨ k <:+: y ∨
      ∃ k₁ k₂, k = k₁ ++ k₂ ∧ k₁ ≠ [] ∧ k₂ ≠ [] ∧ k₁ <:+ x ∧ k₂ <+: y := by
  intro x
  induction x generalizing k with
  | nil => intro h; exact Or.inr (Or.inl h)
  | cons a x' ih =>
    intro h
    rw [List.cons_append] at h
    rcases ifx_cons_decomp h with h₁ | h₁
    · cases k with
      | nil => exact Or.inl nil_ifx
      | cons b k' =>
        obtain ⟨hb, hk'⟩ := List.cons_prefix_cons.mp h₁
        rcases pfx_append_decomp x' hk' with h₂ | ⟨q, hq, hqy⟩
        · exact Or.inl (List.cons_prefix_cons.mpr ⟨hb, h₂⟩).isInfix
        · cases q with
          | nil =>
            have hk'x : k' <+: x' := by rw [hq, List.append_nil]
            exact Or.inl (List.cons_prefix_cons.mpr ⟨hb, hk'x⟩).isInfix
          | cons q0 q' =>
            refine Or.inr (Or.inr ⟨a :: x', q0 :: q', ?_, by simp, by simp,
              List.suffix_refl _, hqy⟩)
            rw [hb, hq]
            simp
    · rcases ih h₁ with h₂ | h₂ | ⟨k₁, k₂, heq, hne₁, hne₂, hsfx, hpfy⟩
      · exact Or.inl (List.infix_cons h₂)
      · exact Or.inr (Or.inl h₂)
      · exact Or.inr (Or.inr ⟨k₁, k₂, heq, hne₁, hne₂,
          hsfx.trans (List.suffix_cons a x'), hpfy⟩)

theorem pfx_kept (pat rep K : PyStr) (hrep : rep ≠ [])
    (hdisj : ∀ c ∈ rep, c ∉ K) :
    ∀ n s, s.length ≤ n → ∀ k₂, k₂ ≠ [] → k₂ <:+ K →
      k₂ <+: replaceAll s pat rep → k₂ <+: s := by
  intro n
  induction n with
  | zero =>
    intro s hlen k₂ _ _ hpfx
    have hs : s = [] := List.length_eq_zero.mp (Nat.le_zero.mp hlen)
    subst hs
    rwa [replaceAll_nil] at hpfx
  | succ n ih =>
    intro s hlen k₂ hne hsfx hpfx
    by_cases hpat : pat = []
    · subst hpat; rwa [replaceAll_empty_pat] at hpfx
    · cases s with
      | nil => rwa [replaceAll_nil] at hpfx
      | cons c s' =>
        rw [replaceAll_cons pat rep hpat] at hpfx
        simp only [List.length_cons] at hlen
        by_cases hm : pat.isPrefixOf (c :: s') = true
        · rw [if_pos hm] at hpfx
          rcases pfx_append_decomp rep hpfx with h₁ | ⟨q, hq, _⟩
          · cases k₂ with
            | nil => exact absurd rfl hne
            | cons d k₃ =>
              have hd_rep : d ∈ rep := h₁.subset (List.mem_cons_self d k₃)
              have hd_K : d ∈ K := hsfx.subset (List.mem_cons_self d k₃)
              exact absurd hd_K (hdisj d hd_rep)
          · cases rep with
            | nil => exact absurd rfl hrep
            | cons r0 r' =>
              have h0 : r0 ∈ K := hsfx.subset
                (by rw [hq]; exact List.mem_cons_self _ _)
              exact absurd h0 (hdisj r0 (List.mem_cons_self _ _))
        · rw [if_neg hm] at hpfx
          cases k₂ with
          | nil => exact absurd rfl hne
          | cons d k₃ =>
            obtain ⟨hd, hk₃⟩ := List.cons_prefix_cons.mp hpfx
            by_cases h3 : k₃ = []
            · subst h3
              exact List.cons_prefix_cons.mpr ⟨hd, nil_pfx _⟩
            · have hk₃sfx : k₃ <:+ K := (List.suffix_cons d k₃).trans hsfx
              have := ih s' (by omega) k₃ h3 hk₃sfx hk₃
              exact List.cons_prefix_cons.mpr ⟨hd, this⟩

theorem replaceAll_removes_all (pat rep : PyStr) (hpat : pat ≠ [])
    (hrep : rep ≠ []) (hdisj : ∀ c ∈ rep, c ∉ pat) :
    ∀ n s, s.length ≤ n → ¬ pat <:+: replaceAll s pat rep := by
  intro n
  induction n with
  | zero =>
    intro s hlen hocc
    have hs : s = [] := List.length_eq_zero.mp (Nat.le_zero.mp hlen)
    subst hs
    rw [replaceAll_nil] at hocc
    exact hpat (List.infix_nil.mp hocc)
  | succ n ih =>
    intro s hlen
    cases s with
    | nil =>
      rw [replaceAll_nil]
      intro hocc
      exact hpat (List.infix_nil.mp hocc)
    | cons c s' =>
      rw [replaceAll_cons pat rep hpat]
      simp only [List.length_cons] at hlen
      have hplen : 0 < pat.length := List.length_pos.mpr hpat
      by_cases hm : pat.isPrefixOf (c :: s') = true
      · rw [if_pos hm]
        intro hocc
        rcases ifx_append_decomp rep hocc with
          h₁ | h₁ | ⟨k₁, k₂, heq, hne₁, _, hsfx, _⟩
        · cases pat with
          | nil => exact hpat rfl
          | cons p0 p' =>
            have hp0 : p0 ∈ rep := h₁.sublist.subset (List.mem_cons_self _ _)
            exact absurd (List.mem_cons_self p0 p') (hdisj p0 hp0)
        · refine ih ((c :: s').drop pat.length) ?_ h₁
          simp only [List.length_drop, List.length_cons]
          omega
        · cases k₁ with
          | nil => exact hne₁ rfl
          | cons d k₁' =>
            have hd_rep : d ∈ rep := hsfx.subset (List.mem_cons_self _ _)
            have hd_pat : d ∈ pat := by
              rw [heq]; exact List.mem_append_left _ (List.mem_cons_self _ _)
            exact absurd hd_pat (hdisj d hd_rep)
      · rw [if_neg hm]
        intro hocc
        rcases ifx_cons_decomp hocc with h₁ | h₁
        · obtain ⟨p0, p', hpp⟩ : ∃ a l, pat = a :: l := by
            cases pat with
            | nil => exact absurd rfl hpat
            | cons a l => exact ⟨a, l, rfl⟩
          subst hpp
          obtain ⟨hp0, hp'⟩ := List.cons_prefix_cons.mp h₁
          by_cases hp'e : p' = []
          · subst hp'e
            exact hm (isPrefixOf_true.mpr
              (List.cons_prefix_cons.mpr ⟨hp0, nil_pfx _⟩))
          · have hk : p' <+: s' :=
              pfx_kept (p0 :: p') rep (p0 :: p') hrep hdisj s'.length s'
                (Nat.le_refl _) p' hp'e (List.suffix_cons p0 p') hp'
            exact hm (isPrefixOf_true.mpr
              (List.cons_prefix_cons.mpr ⟨hp0, hk⟩))
        · exact ih s' (by omega) h₁

theorem replaceAll_keeps_absent (pat rep k₀ : PyStr) (hrep : rep ≠ [])
    (hk : k₀ ≠ []) (hdisj : ∀ c ∈ rep, c ∉ k₀) :
    ∀ n s, s.length ≤ n → ¬ k₀ <:+: s → ¬ k₀ <:+: replaceAll s pat rep := by
  intro n
  induction n with
  | zero =>
    intro s hlen hno
    have hs : s = [] := List.length_eq_zero.mp (Nat.le_zero.mp hlen)
    subst hs
    rwa [replaceAll_nil]
  | succ n ih =>
    intro s hlen hno
    by_cases hpat : pat = []
    · subst hpat; rwa [replaceAll_empty_pat]
    · cases s with
      | nil => rwa [replaceAll_nil]
      | cons c s' =>
        rw [replaceAll_cons pat rep hpat]
        simp only [List.length_cons] at hlen
        have hplen : 0 < pat.length := List.length_pos.mpr hpat
        by_cases hm : pat.isPrefixOf (c :: s') = true
        · rw [if_pos hm]
          intro hocc
          rcases ifx_append_decomp rep hocc with
            h₁ | h₁ | ⟨k₁, k₂, heq, hne₁, _, hsfx, _⟩
          · cases k₀ with
            | nil => exact hk rfl
            | cons d k₃ =>
              have hd_rep : d ∈ rep := h₁.sublist.subset
                (List.mem_cons_self _ _)
              exact absurd (List.mem_cons_self d k₃) (hdisj d hd_rep)
          · refine ih ((c :: s').drop pat.length) ?_ ?_ h₁
            · simp only [List.length_drop, List.length_cons]; omega
            · intro hx
              exact hno (hx.trans (List.drop_suffix _ _).isInfix)
          · cases k₁ with
            | nil => exact hne₁ rfl
            | cons d k₁' =>
              have hd_rep : d ∈ rep := hsfx.subset (List.mem_cons_self _ _)
              have hd_k : d ∈ k₀ := by
                rw [heq]; exact List.mem_append_left _ (List.mem_cons_self _ _)
              exact absurd hd_k (hdisj d hd_rep)
        · rw [if_neg hm]
          intro hocc
          rcases ifx_cons_decomp hocc with h₁ | h₁
          · obtain ⟨d, k₃, hkk⟩ : ∃ a l, k₀ = a :: l := by
              cases k₀ with
              | nil => exact absurd rfl hk
              | cons a l => exact ⟨a, l, rfl⟩
            subst hkk
            obtain ⟨hd, hk₃⟩ := List.cons_prefix_cons.mp h₁
            by_cases h3 : k₃ = []
            · subst h3
              exact hno (List.cons_prefix_cons.mpr ⟨hd, nil_pfx _⟩).isInfix
            · have hkept : k₃ <+: s' :=
                pfx_kept pat rep (d :: k₃) hrep hdisj s'.length s'
                  (Nat.le_refl _) k₃ h3 (List.suffix_cons d k₃) hk₃
              exact hno (List.cons_prefix_cons.mpr ⟨hd, hkept⟩).isInfix
          · exact ih s' (by omega) (fun hx => hno (List.infix_cons hx)) h₁

theorem replaceAll_id_of_absent (pat rep : PyStr) :
    ∀ s, ¬ pat <:+: s → replaceAll s pat rep = s := by
  intro s
  induction s with
  | nil => intro _; exact replaceAll_nil pat rep
  | cons c s' ih =>
    intro h
    have hpat : pat ≠ [] := fun he => h (he ▸ nil_ifx)
    rw [replaceAll_cons pat rep hpat, if_neg, ih fun hx => h (List.infix_cons hx)]
    intro hm
    exact h (isPrefixOf_true.mp hm).isInfix

/-- All characters occurring in the four placeholder tokens. -/
def keyChars : PyStr := "%GRUP%USER%HOME%SSH_CONFIG%".data

theorem keyChars_no_digit : ∀ c ∈ keyChars, c.isDigit = false := by decide

theorem digit_avoid (c : Char) (hd : c.isDigit = true) : c ∉ keyChars := by
  intro hmem
  rw [keyChars_no_digit c hmem] at hd
  exact absurd hd (by decide)

theorem zfill_digits (g : PyStr) (hg : ∀ c ∈ g, c.isDigit = true) :
    ∀ c ∈ zfill g 2, c.isDigit = true := by
  intro c hc
  by_cases hl : 2 ≤ g.length
  · unfold zfill at hc; rw [if_pos hl] at hc; exact hg c hc
  · cases g with
    | nil =>
      unfold zfill at hc
      rw [if_neg hl] at hc
      rw [List.eq_of_mem_replicate hc]
      decide
    | cons a rest =>
      have ha : a.isDigit = true := hg a (List.mem_cons_self _ _)
      have hsign : ¬ (a = '+' ∨ a = '-') := by
        rintro (rfl | rfl) <;> exact absurd ha (by decide)
      unfold zfill at hc
      rw [if_neg hl] at hc
      simp only [] at hc
      rw [if_neg hsign] at hc
      rcases List.mem_append.mp hc with h | h
      · rw [List.eq_of_mem_replicate h]; decide
      · exact hg c h

theorem placeholders_keys_ne (g' : PyStr) :
    ∀ kv ∈ placeholders g', kv.1 ≠ [] := by
  intro kv hkv
  simp only [placeholders, List.mem_cons, List.not_mem_nil, or_false] at hkv
  rcases hkv with rfl | rfl | rfl | rfl <;> (dsimp only; decide)

theorem placeholders_keys_sub (g' : PyStr) :
    ∀ kv ∈ placeholders g', ∀ c ∈ kv.1, c ∈ keyChars := by
  intro kv hkv
  simp only [placeholders, List.mem_cons, List.not_mem_nil, or_false] at hkv
  rcases hkv with rfl | rfl | rfl | rfl <;> (dsimp only; decide)

theorem placeholders_values_safe (g' : PyStr)
    (hg : ∀ c ∈ g', c.isDigit = true) :
    ∀ kv ∈ placeholders g', kv.2 ≠ [] ∧ ∀ c ∈ kv.2, c ∉ keyChars := by
  intro kv hkv
  simp only [placeholders, List.mem_cons, List.not_mem_nil, or_false] at hkv
  rcases hkv with rfl | rfl | rfl | rfl
  · refine ⟨?_, ?_⟩
    · intro h
      have := congrArg List.length h
      rw [List.length_append] at this
      have h4 : ("grup".data).length = 4 := rfl
      rw [h4] at this
      simp at this
    · intro c hc
      rcases List.mem_append.mp hc with h | h
      · have hx : ∀ c ∈ "grup".data, c ∉ keyChars := by decide
        exact hx c h
      · exact digit_avoid c (hg c h)
  · exact ⟨by decide, by decide⟩
  · exact ⟨by decide, by decide⟩
  · exact ⟨by decide, by decide⟩

theorem placeholders_cross_disj (g' : PyStr)
    (hg : ∀ c ∈ g', c.isDigit = true) :
    ∀ kv₁ ∈ placeholders g', ∀ kv₂ ∈ placeholders g',
      ∀ c ∈ kv₂.2, c ∉ kv₁.1 :=
  fun kv₁ h₁ kv₂ h₂ c hc hck =>
    (placeholders_values_safe g' hg kv₂ h₂).2 c hc
      (placeholders_keys_sub g' kv₁ h₁ c hck)

theorem values_no_key_occurrence (g' : PyStr)
    (hg : ∀ c ∈ g', c.isDigit = true) :
    ∀ kv ∈ placeholders g', ∀ kv₂ ∈ placeholders g',
      ¬ kv₂.1 <:+: kv.2 := by
  intro kv hkv kv₂ hkv₂ hocc
  obtain ⟨d, k', hk⟩ : ∃ a l, kv₂.1 = a :: l := by
    cases hx : kv₂.1 with
    | nil => exact absurd hx (placeholders_keys_ne g' kv₂ hkv₂)
    | cons a l => exact ⟨a, l, rfl⟩
  have hd_val : d ∈ kv.2 :=
    hocc.sublist.subset (hk ▸ List.mem_cons_self d k')
  have hd_keys : d ∈ keyChars :=
    placeholders_keys_sub g' kv₂ hkv₂ d (hk ▸ List.mem_cons_self d k')
  exact (placeholders_values_safe g' hg kv hkv).2 d hd_val hd_keys

theorem replaceAll_self (pat rep : PyStr) (h : pat ≠ []) :
    replaceAll pat pat rep = rep := by
  obtain ⟨c, s', rfl⟩ : ∃ a l, pat = a :: l := by
    cases pat with
    | nil => exact absurd rfl h
    | cons a l => exact ⟨a, l, rfl⟩
  rw [replaceAll_cons _ _ h]
  rw [if_pos (isPrefixOf_true.mpr (List.prefix_refl _))]
  rw [List.drop_length, replaceAll_nil, List.append_nil]

theorem resolve_unfolded (cmd g' : PyStr) :
    resolve_placeholders cmd g' =
      replaceAll (replaceAll (replaceAll (replaceAll cmd
        "%GRUP%".data ("grup".data ++ g'))
        "%USER%".data "guille".data)
        "%HOME%".data "/home/guille".data)
        "%SSH_CONFIG%".data "/home/guill/.ssh/config".data := rfl

theorem resolve_placeholders_removes (g' cmd : PyStr)
    (hg : ∀ c ∈ g', c.isDigit = true) :
    ∀ kv ∈ placeholders g', ¬ kv.1 <:+: resolve_placeholders cmd g' := by
  have m₁ : ("%GRUP%".data, "grup".data ++ g') ∈ placeholders g' := by
    simp [placeholders]
  have m₂ : ("%USER%".data, "guille".data) ∈ placeholders g' := by
    simp [placeholders]
  have m₃ : ("%HOME%".data, "/home/guille".data) ∈ placeholders g' := by
    simp [placeholders]
  have m₄ : ("%SSH_CONFIG%".data, "/home/guill/.ssh/config".data)
      ∈ placeholders g' := by simp [placeholders]
  have hvne := fun kv h => (placeholders_values_safe g' hg kv h).1
  have hdisj := placeholders_cross_disj g' hg
  intro kv hkv
  rw [resolve_unfolded]
  simp only [placeholders, List.mem_cons, List.not_mem_nil, or_false] at hkv
  have hne := placeholders_keys_ne g'
  rcases hkv with rfl | rfl | rfl | rfl
  · refine replaceAll_keeps_absent _ _ _ (hvne _ m₄) (hne _ m₁)
      (hdisj _ m₁ _ m₄) _ _ (Nat.le_refl _) ?_
    refine replaceAll_keeps_absent _ _ _ (hvne _ m₃) (hne _ m₁)
      (hdisj _ m₁ _ m₃) _ _ (Nat.le_refl _) ?_
    refine replaceAll_keeps_absent _ _ _ (hvne _ m₂) (hne _ m₁)
      (hdisj _ m₁ _ m₂) _ _ (Nat.le_refl _) ?_
    exact replaceAll_removes_all _ _ (hne _ m₁) (hvne _ m₁)
      (hdisj _ m₁ _ m₁) _ _ (Nat.le_refl _)
  · refine replaceAll_keeps_absent _ _ _ (hvne _ m₄) (hne _ m₂)
      (hdisj _ m₂ _ m₄) _ _ (Nat.le_refl _) ?_
    refine replaceAll_keeps_absent _ _ _ (hvne _ m₃) (hne _ m₂)
      (hdisj _ m₂ _ m₃) _ _ (Nat.le_refl _) ?_
    exact replaceAll_removes_all _ _ (hne _ m₂) (hvne _ m₂)
      (hdisj _ m₂ _ m₂) _ _ (Nat.le_refl _)
  · refine replaceAll_keeps_absent _ _ _ (hvne _ m₄) (hne _ m₃)
      (hdisj _ m₃ _ m₄) _ _ (Nat.le_refl _) ?_
    exact replaceAll_removes_all _ _ (hne _ m₃) (hvne _ m₃)
      (hdisj _ m₃ _ m₃) _ _ (Nat.le_refl _)
  · exact replaceAll_removes_all _ _ (hne _ m₄) (hvne _ m₄)
      (hdisj _ m₄ _ m₄) _ _ (Nat.le_refl _)

/-- C7: the Placeholder Resolver substitutes every occurrence of every table
token (after full resolution no table token remains; multiple occurrences
are shown substituted in the concrete conjunct), binds `%GRUP%` to `grup`
followed by the group id zero-padded to width 2 (`"5"` yields `grup05`),
passes commands without tokens through unchanged, and leaves tokens outside
the table (such as `%FOO%`) as they are.  The group id is assumed to consist
of decimal digits, as in every example of the specification; the token
characters are then disjoint from every substituted value. -/
theorem C7_placeholder_resolution (gid cmd : PyStr)
    (hgid : ∀ c ∈ gid, c.isDigit = true) :
    (resolve_placeholders "%GRUP%".data (zfill gid 2)
        = "grup".data ++ zfill gid 2) ∧
    ((∀ kv ∈ placeholders (zfill gid 2), ¬ kv.1 <:+: cmd) →
      resolve_placeholders cmd (zfill gid 2) = cmd) ∧
    (∀ kv ∈ placeholders (zfill gid 2),
      ¬ kv.1 <:+: resolve_placeholders cmd (zfill gid 2)) ∧
    resolve_placeholders "echo %GRUP% + %GRUP% %USER%".data (zfill "5".data 2)
        = "echo grup05 + grup05 guille".data ∧
    resolve_placeholders "echo %FOO%".data (zfill "5".data 2)
        = "echo %FOO%".data := by
  have hg' : ∀ c ∈ zfill gid 2, c.isDigit = true := zfill_digits gid hgid
  have m₁ : ("%GRUP%".data, "grup".data ++ zfill gid 2)
      ∈ placeholders (zfill gid 2) := by simp [placeholders]
  have m₂ : ("%USER%".data, "guille".data)
      ∈ placeholders (zfill gid 2) := by simp [placeholders]
  have m₃ : ("%HOME%".data, "/home/guille".data)
      ∈ placeholders (zfill gid 2) := by simp [placeholders]
  have m₄ : ("%SSH_CONFIG%".data, "/home/guill/.ssh/config".data)
      ∈ placeholders (zfill gid 2) := by simp [placeholders]
  have hnokey := values_no_key_occurrence (zfill gid 2) hg'
  refine ⟨?_, ?_, ?_, by decide, by decide⟩
  · rw [resolve_unfolded]
    rw [replaceAll_self _ _ (by decide)]
    rw [replaceAll_id_of_absent _ _ _ (hnokey _ m₁ _ m₂)]
    rw [replaceAll_id_of_absent _ _ _ (hnokey _ m₁ _ m₃)]
    rw [replaceAll_id_of_absent _ _ _ (hnokey _ m₁ _ m₄)]
  · intro habs
    rw [resolve_unfolded]
    rw [replaceAll_id_of_absent _ _ _ (habs _ m₁)]
    rw [replaceAll_id_of_absent _ _ _ (habs _ m₂)]
    rw [replaceAll_id_of_absent _ _ _ (habs _ m₃)]
    rw [replaceAll_id_of_absent _ _ _ (habs _ m₄)]
  · exact resolve_placeholders_removes (zfill gid 2) cmd hg'

theorem C7_placeholder_resolution_witness :
    resolve_placeholders "%GRUP%".data (zfill "5".data 2)
        = "grup".data ++ zfill "5".data 2 ∧
    resolve_placeholders "ls -la /tmp".data (zfill "5".data 2)
        = "ls -la /tmp".data := by
  constructor
  · exact (C7_placeholder_resolution "5".data [] (by decide)).1
  · exact (C7_placeholder_resolution "5".data "ls -la /tmp".data
      (by decide)).2.1 (by decide)

/-- C10: the token table binds `%HOME%` to `/home/guille` but
`%SSH_CONFIG%` to `/home/guill/.ssh/config`: the substituted SSH
configuration path is not the substituted home directory followed by
`/.ssh/config` (the home-directory segment differs by the final `e`). -/
theorem C10_home_sshconfig_mismatch (gid : PyStr) :
    resolve_placeholders "%HOME%".data gid = "/home/guille".data ∧
    resolve_placeholders "%SSH_CONFIG%".data gid
      = "/home/guill/.ssh/config".data ∧
    resolve_placeholders "%SSH_CONFIG%".data gid
      ≠ resolve_placeholders "%HOME%".data gid ++ "/.ssh/config".data := by
  refine ⟨rfl, rfl, ?_⟩
  intro h
  have e1 : resolve_placeholders "%HOME%".data gid = "/home/guille".data := rfl
  have e2 : resolve_placeholders "%SSH_CONFIG%".data gid
      = "/home/guill/.ssh/config".data := rfl
  rw [e1, e2] at h
  exact absurd h (by decide)

/-- UTF-8 encoding of one code point (RFC 3629), as a list of byte
values.  Models `str.encode("utf-8")` per character. -/
def utf8EncodeChar (c : Char) : List Nat :=
  let n := c.toNat
  if n < 0x80 then [n]
  else if n < 0x800 then [0xC0 + n / 64, 0x80 + n % 64]
  else if n < 0x10000 then
    [0xE0 + n / 4096, 0x80 + n / 64 % 64, 0x80 + n % 64]
  else
    [0xF0 + n / 262144, 0x80 + n / 4096 % 64, 0x80 + n / 64 % 64,
      0x80 + n % 64]

def utf8Encode (s : PyStr) : List Nat :=
  (s.map utf8EncodeChar).flatten

def isCont (b : Nat) : Bool := 0x80 ≤ b ∧ b < 0xC0

/-- UTF-8 decoding; invalid sequences produce U+FFFD (the behaviour on
invalid input only approximates CPython, and is never reached on the
round-trips proved below).  Fueled so reduction stays structural; the fuel
bounds the remaining input length. -/
def utf8DecodeGo : Nat → List Nat → PyStr
  | _, [] => []
  | 0, _ => []
  | fuel + 1, b :: bs =>
    if b < 0x80 then Char.ofNat b :: utf8DecodeGo fuel bs
    else if 0xC2 ≤ b ∧ b < 0xE0 then
      if 1 ≤ bs.length ∧ isCont (bs.headD 0) then
        Char.ofNat ((b - 0xC0) * 64 + (bs.headD 0 - 0x80)) ::
          utf8DecodeGo fuel (bs.drop 1)
      else Char.ofNat 0xFFFD :: utf8DecodeGo fuel bs
    else if 0xE0 ≤ b ∧ b < 0xF0 then
      if 2 ≤ bs.length ∧ isCont (bs.getD 0 0) ∧ isCont (bs.getD 1 0) then
        Char.ofNat ((b - 0xE0) * 4096 + (bs.getD 0 0 - 0x80) * 64 +
          (bs.getD 1 0 - 0x80)) :: utf8DecodeGo fuel (bs.drop 2)
      else Char.ofNat 0xFFFD :: utf8DecodeGo fuel bs
    else if 0xF0 ≤ b ∧ b < 0xF5 then
      if 3 ≤ bs.length ∧ isCont (bs.getD 0 0) ∧ isCont (bs.getD 1 0) ∧
          isCont (bs.getD 2 0) then
        Char.ofNat ((b - 0xF0) * 262144 + (bs.getD 0 0 - 0x80) * 4096 +
          (bs.getD 1 0 - 0x80) * 64 + (bs.getD 2 0 - 0x80)) ::
          utf8DecodeGo fuel (bs.drop 3)
      else Char.ofNat 0xFFFD :: utf8DecodeGo fuel bs
    else Char.ofNat 0xFFFD :: utf8DecodeGo fuel bs

def utf8Decode (l : List Nat) : PyStr := utf8DecodeGo l.length l

def hexDigitChar (n : Nat) : Char :=
  if n < 10 then Char.ofNat (48 + n) else Char.ofNat (55 + n)

def isHexDigitChar (c : Char) : Bool :=
  c.isDigit ∨ ('a' ≤ c ∧ c ≤ 'f') ∨ ('A' ≤ c ∧ c ≤ 'F')

def hexVal (c : Char) : Nat :=
  if c.isDigit then c.toNat - 48
  else if 'a' ≤ c then c.toNat - 87
  else c.toNat - 55

/-- The characters `urllib.parse.quote` never escapes (letters, digits,
`_.-~`), as byte values. -/
def safeByte (b : Nat) : Bool :=
  (48 ≤ b ∧ b ≤ 57) ∨ (65 ≤ b ∧ b ≤ 90) ∨ (97 ≤ b ∧ b ≤ 122) ∨
    b = 95 ∨ b = 46 ∨ b = 45 ∨ b = 126

/-- `urllib.parse.quote_plus` applied to one UTF-8 byte: safe bytes stay,
the space becomes `+`, everything else becomes an uppercase `%XX` escape. -/
def quoteByte (b : Nat) : PyStr :=
  if safeByte b then [Char.ofNat b]
  else if b = 32 then ['+']
  else ['%', hexDigitChar (b / 16), hexDigitChar (b % 16)]

def quotePlus (s : PyStr) : PyStr :=
  ((utf8Encode s).map quoteByte).flatten

/-- Core of `urllib.parse.unquote`: collect each maximal run of `%XX`
escapes into bytes (the accumulator) and decode the run as UTF-8; all other
characters pass through.  Fueled so reduction stays structural; the fuel is
an upper bound on the remaining input length. -/
def unquoteGo : Nat → PyStr → List Nat → PyStr
  | _, [], acc => utf8Decode acc
  | 0, s, acc => utf8Decode acc ++ s
  | fuel + 1, c :: rest, acc =>
    if c = '%' then
      match rest with
      | a :: b :: rest' =>
        if isHexDigitChar a ∧ isHexDigitChar b then
          unquoteGo fuel rest' (acc ++ [16 * hexVal a + hexVal b])
        else utf8Decode acc ++ c :: unquoteGo fuel rest []
      | _ => utf8Decode acc ++ c :: unquoteGo fuel rest []
    else utf8Decode acc ++ c :: unquoteGo fuel rest []

def unquote (s : PyStr) : PyStr := unquoteGo s.length s []

def plusToSpace (s : PyStr) : PyStr :=
  s.map fun c => if c = '+' then ' ' else c

def unquotePlus (s : PyStr) : PyStr := unquote (plusToSpace s)

/-- Python `str.split(sep)` (note `"".split(sep) = [""]`). -/
def splitOnChar (sep : Char) : PyStr → List PyStr
  | [] => [[]]
  | c :: r =>
    let ps := splitOnChar sep r
    if c = sep then [] :: ps
    else
      match ps with
      | p :: ps' => (c :: p) :: ps'
      | [] => [[c]]

/-- `urllib.parse.parse_qsl(qs, keep_blank_values=True)`: split on `&`,
skip empty pieces, split each piece at its first `=` (a piece without `=`
keeps a blank value), and unquote names and values. -/
def parse_qsl (qs : PyStr) : List (PyStr × PyStr) :=
  (splitOnChar '&' qs).filterMap fun nv =>
    if nv = [] then none
    else
      match nv.dropWhile (· ≠ '=') with
      | _ :: value =>
        some (unquotePlus (nv.takeWhile (· ≠ '=')), unquotePlus value)
      | [] => some (unquotePlus nv, [])

/-- `urllib.parse.urlencode` with the default `quote_plus`. -/
def urlencode (l : List (PyStr × PyStr)) : PyStr :=
  List.intercalate ['&']
    (l.map fun kv => quotePlus kv.1 ++ '=' :: quotePlus kv.2)

structure SplitResult where
  scheme : PyStr
  netloc : PyStr
  path : PyStr
  query : PyStr
  fragment : PyStr
  deriving Repr, DecidableEq

def schemeChar (c : Char) : Bool :=
  c.isAlpha ∨ c.isDigit ∨ c = '+' ∨ c = '-' ∨ c = '.'

/-- A character that does not end the netloc (not one of `/?#`). -/
def notDelim (c : Char) : Bool := ¬ (c = '/' ∨ c = '?' ∨ c = '#')

/-- `urllib.parse.urlsplit`: detect a scheme before the first `:`, a
netloc after a leading `//` up to the first of `/?#` (CPython checks
`url[:2] == '//'`), then split off the fragment at the first `#` and the
query at the first `?`.  (This is the parsing core, applied to an
already-cleaned URL; `urlsplitPy` below adds CPython's WHATWG
control-character stripping and the `ValueError` paths for bracketed
netlocs, both reachable from caller-supplied URLs.) -/
def urlsplit (url : PyStr) : SplitResult :=
  let pre := url.takeWhile (· ≠ ':')
  let post := url.dropWhile (· ≠ ':')
  let sp :=
    if post ≠ [] ∧ pre ≠ [] ∧ pre.all schemeChar ∧ (pre.headD 'a').isAlpha
    then (pre.map Char.toLower, post.drop 1)
    else (([] : PyStr), url)
  let scheme := sp.1
  let u₁ := sp.2
  let np :=
    if u₁.take 2 = ['/', '/'] then
      ((u₁.drop 2).takeWhile notDelim, (u₁.drop 2).dropWhile notDelim)
    else (([] : PyStr), u₁)
  let netloc := np.1
  let u₂ := np.2
  let u₃ := u₂.takeWhile (· ≠ '#')
  let fragment := (u₂.dropWhile (· ≠ '#')).drop 1
  let path := u₃.takeWhile (· ≠ '?')
  let query := (u₃.dropWhile (· ≠ '?')).drop 1
  ⟨scheme, netloc, path, query, fragment⟩

/-- `urllib.parse.urlunsplit`. -/
def urlunsplit (r : SplitResult) : PyStr :=
  let url := r.path
  let url :=
    if r.netloc ≠ [] ∨ (url ≠ [] ∧ url.take 2 = ['/', '/']) then
      '/' :: '/' :: (r.netloc ++
        (if url ≠ [] ∧ url.take 1 ≠ ['/'] then '/' :: url else url))
    else url
  let url := if r.scheme ≠ [] then r.scheme ++ ':' :: url else url
  let url := if r.query ≠ [] then url ++ '?' :: r.query else url
  if r.fragment ≠ [] then url ++ '#' :: r.fragment else url

/-- `normalize_url` (lines 111–121): prepend `https://` when neither
`http://` nor `https://` is a literal front of the string. -/
def normalize_url (webserver : PyStr) : PyStr :=
  if "http://".data.isPrefixOf webserver
      ∨ "https://".data.isPrefixOf webserver then
    webserver
  else "https://".data ++ webserver

/-- The URL construction of `send_post` (lines 144–155): normalize, split,
append `("group_id", gid)` to the parsed query pairs, re-encode, unsplit. -/
def build_final_url (url gid : PyStr) : PyStr :=
  let parsed := urlsplit (normalize_url url)
  let q := parse_qsl parsed.query ++ [("group_id".data, gid)]
  urlunsplit ⟨parsed.scheme, parsed.netloc, parsed.path, urlencode q,
    parsed.fragment⟩

example : build_final_url "example.com/api".data "7".data
    = "https://example.com/api?group_id=7".data := by decide

example : parse_qsl (urlencode [("a".data, "b c".data)])
    = [("a".data, "b c".data)] := by decide

example : urlsplit "https://example.com/api?x=1#f".data
    = ⟨"https".data, "example.com".data, "/api".data, "x=1".data,
      "f".data⟩ := by decide

example : build_final_url "https://example.com/api?x=1".data "07".data
    = "https://example.com/api?x=1&group_id=07".data := by decide

instance {α β : Type} [DecidableEq α] [DecidableEq β] :
    DecidableEq (Except α β)
  | .error x, .error y =>
    if h : x = y then .isTrue (congrArg Except.error h)
    else .isFalse (fun he => h (Except.error.inj he))
  | .error _, .ok _ => .isFalse (fun he => Except.noConfusion he)
  | .ok _, .error _ => .isFalse (fun he => Except.noConfusion he)
  | .ok x, .ok y =>
    if h : x = y then .isTrue (congrArg Except.ok h)
    else .isFalse (fun he => h (Except.ok.inj he))

/-- The WHATWG preprocessing CPython's `urlsplit` performs before parsing:
`url.lstrip(_WHATWG_C0_CONTROL_OR_SPACE)` removes every leading character
`≤ U+0020`, and the `_UNSAFE_URL_BYTES_TO_REMOVE` loop of
`str.replace(b, "")` calls then deletes every tab, CR and LF wherever it
occurs (sequential removal of three distinct characters equals one
filter). -/
def whatwgClean (url : PyStr) : PyStr :=
  (url.dropWhile (fun c => c.toNat ≤ 0x20)).filter
    (fun c => ¬ (c = '\t' ∨ c = '\r' ∨ c = '\n'))

/-- `netloc.partition('[')[2].partition(']')[0]`: the text between the
first `[` and the next `]`, handed to `_check_bracketed_host`. -/
def bracketedHost (netloc : PyStr) : PyStr :=
  ((netloc.dropWhile (· ≠ '[')).drop 1).takeWhile (· ≠ ']')

/-- The fast path of CPython's `_checknetloc`: it returns at once when
`not netloc or netloc.isascii()`; only a non-empty non-ASCII netloc
reaches the NFKC comparison. -/
def asciiNetloc (n : PyStr) : Bool :=
  n.isEmpty || n.all (fun c => c.toNat < 128)

/-- `urllib.parse.urlsplit` with its reachable `ValueError` paths
(CPython 3.11): after the WHATWG cleanup and the scheme/netloc/fragment/
query split of the core `urlsplit`, a netloc holding `[` without `]` (or
`]` without `[`) raises `ValueError("Invalid IPv6 URL")`; a balanced
bracket pair sends the bracketed text to `_check_bracketed_host`, which
defers to `ipaddress.ip_address` (or the IPvFuture check) and is modelled
by the oracle `checkHost`; finally `_checknetloc` returns at once for an
empty or all-ASCII netloc and otherwise performs an NFKC comparison,
modelled by the oracle `checkNet`.  `.error` carries the exception
message. -/
def urlsplitPy (checkHost checkNet : PyStr → Except PyStr Unit)
    (url : PyStr) : Except PyStr SplitResult :=
  let r := urlsplit (whatwgClean url)
  if ('[' ∈ r.netloc ∧ ¬ ']' ∈ r.netloc)
      ∨ (']' ∈ r.netloc ∧ ¬ '[' ∈ r.netloc) then
    .error "Invalid IPv6 URL".data
  else if '[' ∈ r.netloc ∧ ']' ∈ r.netloc then
    match checkHost (bracketedHost r.netloc) with
    | .error e => .error e
    | .ok _ =>
      if asciiNetloc r.netloc then .ok r
      else match checkNet r.netloc with
        | .error e => .error e
        | .ok _ => .ok r
  else
    if asciiNetloc r.netloc then .ok r
    else match checkNet r.netloc with
      | .error e => .error e
      | .ok _ => .ok r

/-- Lines 144–155 as executed: `urlsplit` is called on the normalized URL
at line 146, *outside* the `try` of `send_post`, so a `ValueError` raised
there propagates out of `send_post`; on success the final URL is built as
in `build_final_url`. -/
def build_final_urlPy (checkHost checkNet : PyStr → Except PyStr Unit)
    (url gid : PyStr) : Except PyStr PyStr :=
  match urlsplitPy checkHost checkNet (normalize_url url) with
  | .error e => .error e
  | .ok parsed =>
    .ok (urlunsplit ⟨parsed.scheme, parsed.netloc, parsed.path,
      urlencode (parse_qsl parsed.query ++ [("group_id".data, gid)]),
      parsed.fragment⟩)

example : urlsplitPy (fun _ => .ok ()) (fun _ => .ok ())
    "https://[x".data = .error "Invalid IPv6 URL".data := by decide

example : urlsplitPy (fun _ => .ok ()) (fun _ => .ok ())
    "https://example.com/a\tb".data
    = .ok ⟨"https".data, "example.com".data, "/ab".data, [], []⟩ := by decide

theorem unquoteGo_nilS (fuel : Nat) (acc : List Nat) :
    unquoteGo fuel [] acc = utf8Decode acc := by
  cases fuel <;> rfl

theorem unquoteGo_esc (f : Nat) (a b : Char) (rest : PyStr) (acc : List Nat)
    (ha : isHexDigitChar a = true) (hb : isHexDigitChar b = true) :
    unquoteGo (f + 1) ('%' :: a :: b :: rest) acc
      = unquoteGo f rest (acc ++ [16 * hexVal a + hexVal b]) := by
  simp only [unquoteGo]
  simp [ha, hb]

theorem unquoteGo_escBad (f : Nat) (a b : Char) (rest : PyStr)
    (acc : List Nat)
    (h : ¬ (isHexDigitChar a = true ∧ isHexDigitChar b = true)) :
    unquoteGo (f + 1) ('%' :: a :: b :: rest) acc
      = utf8Decode acc ++ '%' :: unquoteGo f (a :: b :: rest) [] := by
  simp only [unquoteGo]
  simp [h]

theorem unquoteGo_pctOne (f : Nat) (acc : List Nat) :
    unquoteGo (f + 1) ['%'] acc
      = utf8Decode acc ++ '%' :: unquoteGo f [] [] := by
  simp only [unquoteGo]
  simp

theorem unquoteGo_pctTwo (f : Nat) (a : Char) (acc : List Nat) :
    unquoteGo (f + 1) ['%', a] acc
      = utf8Decode acc ++ '%' :: unquoteGo f [a] [] := by
  simp only [unquoteGo]
  simp

theorem unquoteGo_lit (f : Nat) (c : Char) (rest : PyStr) (acc : List Nat)
    (hc : c ≠ '%') :
    unquoteGo (f + 1) (c :: rest) acc
      = utf8Decode acc ++ c :: unquoteGo f rest [] := by
  simp only [unquoteGo]
  rw [if_neg hc]

theorem unquoteGo_congr :
    ∀ f₁ f₂ (s : PyStr) (acc : List Nat), s.length ≤ f₁ → s.length ≤ f₂ →
      unquoteGo f₁ s acc = unquoteGo f₂ s acc := by
  intro f₁
  induction f₁ with
  | zero =>
    intro f₂ s acc h₁ _
    have hs : s = [] := List.length_eq_zero.mp (Nat.le_zero.mp h₁)
    subst hs
    rw [unquoteGo_nilS, unquoteGo_nilS]
  | succ f ih =>
    intro f₂ s acc h₁ h₂
    cases s with
    | nil => rw [unquoteGo_nilS, unquoteGo_nilS]
    | cons c rest =>
      cases f₂ with
      | zero => simp at h₂
      | succ f₂ =>
        simp only [List.length_cons] at h₁ h₂
        by_cases hc : c = '%'
        · subst hc
          cases rest with
          | nil =>
            rw [unquoteGo_pctOne, unquoteGo_pctOne, unquoteGo_nilS,
              unquoteGo_nilS]
          | cons a rest₂ =>
            cases rest₂ with
            | nil =>
              rw [unquoteGo_pctTwo, unquoteGo_pctTwo]
              simp only [List.length_cons, List.length_nil] at h₁ h₂
              have hla : ([a] : PyStr).length = 1 := rfl
              rw [ih f₂ [a] [] (by omega) (by omega)]
            | cons b rest' =>
              simp only [List.length_cons, List.length_nil] at h₁ h₂
              by_cases hh : isHexDigitChar a = true ∧ isHexDigitChar b = true
              · rw [unquoteGo_esc f a b rest' acc hh.1 hh.2,
                  unquoteGo_esc f₂ a b rest' acc hh.1 hh.2]
                exact ih f₂ rest' _ (by omega) (by omega)
              · rw [unquoteGo_escBad f a b rest' acc hh,
                  unquoteGo_escBad f₂ a b rest' acc hh]
                rw [ih f₂ (a :: b :: rest') []
                  (by simp only [List.length_cons]; omega)
                  (by simp only [List.length_cons]; omega)]
        · rw [unquoteGo_lit f c rest acc hc, unquoteGo_lit f₂ c rest acc hc]
          rw [ih f₂ rest [] (by omega) (by omega)]

/-- `unquoteGo` with just enough fuel; `unquote s = unquoteA s []`. -/
def unquoteA (s : PyStr) (acc : List Nat) : PyStr := unquoteGo s.length s acc

theorem unquote_eq_unquoteA (s : PyStr) : unquote s = unquoteA s [] := rfl

theorem unquoteA_nil (acc : List Nat) : unquoteA [] acc = utf8Decode acc :=
  rfl

theorem unquoteA_lit (c : Char) (rest : PyStr) (acc : List Nat)
    (hc : c ≠ '%') :
    unquoteA (c :: rest) acc = utf8Decode acc ++ c :: unquoteA rest [] :=
  unquoteGo_lit rest.length c rest acc hc

theorem unquoteA_esc (a b : Char) (rest : PyStr) (acc : List Nat)
    (ha : isHexDigitChar a = true) (hb : isHexDigitChar b = true) :
    unquoteA ('%' :: a :: b :: rest) acc
      = unquoteA rest (acc ++ [16 * hexVal a + hexVal b]) := by
  unfold unquoteA
  rw [show ('%' :: a :: b :: rest).length = rest.length + 2 + 1 from rfl]
  rw [unquoteGo_esc (rest.length + 2) a b rest acc ha hb]
  exact unquoteGo_congr (rest.length + 2) rest.length rest _
    (by omega) (Nat.le_refl _)

theorem utf8Encode_nil : utf8Encode [] = [] := rfl

theorem utf8Encode_cons (c : Char) (s : PyStr) :
    utf8Encode (c :: s) = utf8EncodeChar c ++ utf8Encode s := by
  simp [utf8Encode]

theorem utf8Encode_append (s t : PyStr) :
    utf8Encode (s ++ t) = utf8Encode s ++ utf8Encode t := by
  simp [utf8Encode]

theorem char_valid_range (c : Char) :
    c.toNat < 0xD800 ∨ 0xE000 ≤ c.toNat ∧ c.toNat < 0x110000 := c.valid

theorem utf8EncodeChar_lt (c : Char) : ∀ b ∈ utf8EncodeChar c, b < 256 := by
  have hv := char_valid_range c
  intro b hb
  simp only [utf8EncodeChar] at hb
  split_ifs at hb with h1 h2 h3 <;>
    simp only [List.mem_cons, List.not_mem_nil, or_false] at hb <;>
    rcases hb with rfl | rfl | rfl | rfl <;> omega

theorem utf8EncodeChar_ge (c : Char) (h : ¬ c.toNat < 0x80) :
    ∀ b ∈ utf8EncodeChar c, 0x80 ≤ b := by
  intro b hb
  simp only [utf8EncodeChar] at hb
  split_ifs at hb with h1 h2 <;>
    simp only [List.mem_cons, List.not_mem_nil, or_false] at hb <;>
    rcases hb with rfl | rfl | rfl | rfl <;> omega

theorem utf8DecodeGo_nilS (fuel : Nat) : utf8DecodeGo fuel [] = [] := by
  cases fuel <;> rfl

theorem utf8DecodeGo_congr :
    ∀ f₁ f₂ (l : List Nat), l.length ≤ f₁ → l.length ≤ f₂ →
      utf8DecodeGo f₁ l = utf8DecodeGo f₂ l := by
  intro f₁
  induction f₁ with
  | zero =>
    intro f₂ l h₁ _
    have hl : l = [] := List.length_eq_zero.mp (Nat.le_zero.mp h₁)
    subst hl
    rw [utf8DecodeGo_nilS, utf8DecodeGo_nilS]
  | succ f ih =>
    intro f₂ l h₁ h₂
    cases l with
    | nil => rw [utf8DecodeGo_nilS, utf8DecodeGo_nilS]
    | cons b bs =>
      cases f₂ with
      | zero => simp at h₂
      | succ f₂ =>
        simp only [List.length_cons] at h₁ h₂
        simp only [utf8DecodeGo]
        by_cases c1 : b < 0x80
        · rw [if_pos c1, if_pos c1, ih f₂ bs (by omega) (by omega)]
        · rw [if_neg c1, if_neg c1]
          by_cases c2 : 0xC2 ≤ b ∧ b < 0xE0
          · rw [if_pos c2, if_pos c2]
            by_cases v2 : 1 ≤ bs.length ∧ isCont (bs.headD 0) = true
            · rw [if_pos v2, if_pos v2, ih f₂ (bs.drop 1)
                (by simp only [List.length_drop]; omega)
                (by simp only [List.length_drop]; omega)]
            · rw [if_neg v2, if_neg v2, ih f₂ bs (by omega) (by omega)]
          · rw [if_neg c2, if_neg c2]
            by_cases c3 : 0xE0 ≤ b ∧ b < 0xF0
            · rw [if_pos c3, if_pos c3]
              by_cases v3 : 2 ≤ bs.length ∧ isCont (bs.getD 0 0) = true
                  ∧ isCont (bs.getD 1 0) = true
              · rw [if_pos v3, if_pos v3, ih f₂ (bs.drop 2)
                  (by simp only [List.length_drop]; omega)
                  (by simp only [List.length_drop]; omega)]
              · rw [if_neg v3, if_neg v3, ih f₂ bs (by omega) (by omega)]
            · rw [if_neg c3, if_neg c3]
              by_cases c4 : 0xF0 ≤ b ∧ b < 0xF5
              · rw [if_pos c4, if_pos c4]
                by_cases v4 : 3 ≤ bs.length ∧ isCont (bs.getD 0 0) = true
                    ∧ isCont (bs.getD 1 0) = true ∧ isCont (bs.getD 2 0) = true
                · rw [if_pos v4, if_pos v4, ih f₂ (bs.drop 3)
                    (by simp only [List.length_drop]; omega)
                    (by simp only [List.length_drop]; omega)]
                · rw [if_neg v4, if_neg v4, ih f₂ bs (by omega) (by omega)]
              · rw [if_neg c4, if_neg c4, ih f₂ bs (by omega) (by omega)]

theorem utf8Decode_ascii (b : Nat) (bs : List Nat) (h : b < 0x80) :
    utf8Decode (b :: bs) = Char.ofNat b :: utf8Decode bs := by
  unfold utf8Decode
  rw [show (b :: bs).length = bs.length + 1 from rfl]
  simp only [utf8DecodeGo]
  rw [if_pos h]

theorem utf8Decode_two (b b1 : Nat) (bs : List Nat)
    (h1 : ¬ b < 0x80) (h2 : 0xC2 ≤ b ∧ b < 0xE0) (hc : isCont b1 = true) :
    utf8Decode (b :: b1 :: bs)
      = Char.ofNat ((b - 0xC0) * 64 + (b1 - 0x80)) :: utf8Decode bs := by
  unfold utf8Decode
  rw [show (b :: b1 :: bs).length = bs.length + 1 + 1 from rfl]
  simp only [utf8DecodeGo]
  rw [if_neg h1, if_pos h2]
  rw [if_pos (show 1 ≤ (b1 :: bs).length ∧ isCont ((b1 :: bs).headD 0) = true
    from ⟨by simp, by simpa using hc⟩)]
  simp only [List.headD_cons, List.drop_succ_cons, List.drop_zero]
  rw [utf8DecodeGo_congr (bs.length + 1) bs.length bs (by omega)
    (Nat.le_refl _)]

theorem utf8Decode_three (b b1 b2 : Nat) (bs : List Nat)
    (h1 : ¬ b < 0x80) (h2 : ¬ (0xC2 ≤ b ∧ b < 0xE0))
    (h3 : 0xE0 ≤ b ∧ b < 0xF0)
    (hc1 : isCont b1 = true) (hc2 : isCont b2 = true) :
    utf8Decode (b :: b1 :: b2 :: bs)
      = Char.ofNat ((b - 0xE0) * 4096 + (b1 - 0x80) * 64 + (b2 - 0x80)) ::
        utf8Decode bs := by
  unfold utf8Decode
  rw [show (b :: b1 :: b2 :: bs).length = bs.length + 2 + 1 from rfl]
  simp only [utf8DecodeGo]
  rw [if_neg h1, if_neg h2, if_pos h3]
  rw [if_pos (show 2 ≤ (b1 :: b2 :: bs).length
      ∧ isCont ((b1 :: b2 :: bs).getD 0 0) = true
      ∧ isCont ((b1 :: b2 :: bs).getD 1 0) = true
    from ⟨by simp, by simpa using hc1, by simpa using hc2⟩)]
  simp only [List.getD_cons_zero, List.getD_cons_succ, List.drop_succ_cons,
    List.drop_zero]
  rw [utf8DecodeGo_congr (bs.length + 2) bs.length bs (by omega)
    (Nat.le_refl _)]

theorem utf8Decode_four (b b1 b2 b3 : Nat) (bs : List Nat)
    (h1 : ¬ b < 0x80) (h2 : ¬ (0xC2 ≤ b ∧ b < 0xE0))
    (h3 : ¬ (0xE0 ≤ b ∧ b < 0xF0)) (h4 : 0xF0 ≤ b ∧ b < 0xF5)
    (hc1 : isCont b1 = true) (hc2 : isCont b2 = true)
    (hc3 : isCont b3 = true) :
    utf8Decode (b :: b1 :: b2 :: b3 :: bs)
      = Char.ofNat ((b - 0xF0) * 262144 + (b1 - 0x80) * 4096 +
          (b2 - 0x80) * 64 + (b3 - 0x80)) :: utf8Decode bs := by
  unfold utf8Decode
  rw [show (b :: b1 :: b2 :: b3 :: bs).length = bs.length + 3 + 1 from rfl]
  simp only [utf8DecodeGo]
  rw [if_neg h1, if_neg h2, if_neg h3, if_pos h4]
  rw [if_pos (show 3 ≤ (b1 :: b2 :: b3 :: bs).length
      ∧ isCont ((b1 :: b2 :: b3 :: bs).getD 0 0) = true
      ∧ isCont ((b1 :: b2 :: b3 :: bs).getD 1 0) = true
      ∧ isCont ((b1 :: b2 :: b3 :: bs).getD 2 0) = true
    from ⟨by simp, by simpa using hc1, by simpa using hc2,
      by simpa using hc3⟩)]
  simp only [List.getD_cons_zero, List.getD_cons_succ, List.drop_succ_cons,
    List.drop_zero]
  rw [utf8DecodeGo_congr (bs.length + 3) bs.length bs (by omega)
    (Nat.le_refl _)]

theorem utf8Decode_encChar (c : Char) (bs : List Nat) :
    utf8Decode (utf8EncodeChar c ++ bs) = c :: utf8Decode bs := by
  have hv := char_valid_range c
  by_cases h1 : c.toNat < 0x80
  · have he : utf8EncodeChar c = [c.toNat] := by
      simp only [utf8EncodeChar]
      rw [if_pos h1]
    rw [he]
    show utf8Decode (c.toNat :: bs) = _
    rw [utf8Decode_ascii _ _ h1, Char.ofNat_toNat]
  · by_cases h2 : c.toNat < 0x800
    · have he : utf8EncodeChar c
          = [0xC0 + c.toNat / 64, 0x80 + c.toNat % 64] := by
        simp only [utf8EncodeChar]
        rw [if_neg h1, if_pos h2]
      rw [he]
      show utf8Decode
        ((0xC0 + c.toNat / 64) :: (0x80 + c.toNat % 64) :: bs) = _
      rw [utf8Decode_two _ _ _ (by omega) (by constructor <;> omega)
        (by simp [isCont]; omega)]
      rw [show (0xC0 + c.toNat / 64 - 0xC0) * 64
          + (0x80 + c.toNat % 64 - 0x80) = c.toNat by omega]
      rw [Char.ofNat_toNat]
    · by_cases h3 : c.toNat < 0x10000
      · have he : utf8EncodeChar c = [0xE0 + c.toNat / 4096,
            0x80 + c.toNat / 64 % 64, 0x80 + c.toNat % 64] := by
          simp only [utf8EncodeChar]
          rw [if_neg h1, if_neg h2, if_pos h3]
        rw [he]
        show utf8Decode ((0xE0 + c.toNat / 4096)
          :: (0x80 + c.toNat / 64 % 64) :: (0x80 + c.toNat % 64) :: bs) = _
        rw [utf8Decode_three _ _ _ _ (by omega) (by omega)
          (by constructor <;> omega)
          (by simp [isCont]; omega) (by simp [isCont]; omega)]
        rw [show (0xE0 + c.toNat / 4096 - 0xE0) * 4096
            + (0x80 + c.toNat / 64 % 64 - 0x80) * 64
            + (0x80 + c.toNat % 64 - 0x80) = c.toNat by omega]
        rw [Char.ofNat_toNat]
      · have hlt : c.toNat < 0x110000 := by omega
        have he : utf8EncodeChar c = [0xF0 + c.toNat / 262144,
            0x80 + c.toNat / 4096 % 64, 0x80 + c.toNat / 64 % 64,
            0x80 + c.toNat % 64] := by
          simp only [utf8EncodeChar]
          rw [if_neg h1, if_neg h2, if_neg h3]
        rw [he]
        show utf8Decode ((0xF0 + c.toNat / 262144)
          :: (0x80 + c.toNat / 4096 % 64) :: (0x80 + c.toNat / 64 % 64)
          :: (0x80 + c.toNat % 64) :: bs) = _
        rw [utf8Decode_four _ _ _ _ _ (by omega) (by omega) (by omega)
          (by constructor <;> omega)
          (by simp [isCont]; omega) (by simp [isCont]; omega)
          (by simp [isCont]; omega)]
        rw [show (0xF0 + c.toNat / 262144 - 0xF0) * 262144
            + (0x80 + c.toNat / 4096 % 64 - 0x80) * 4096
            + (0x80 + c.toNat / 64 % 64 - 0x80) * 64
            + (0x80 + c.toNat % 64 - 0x80) = c.toNat by omega]
        rw [Char.ofNat_toNat]

theorem utf8Decode_encode (s : PyStr) : utf8Decode (utf8Encode s) = s := by
  induction s with
  | nil => rfl
  | cons c rest ih => rw [utf8Encode_cons, utf8Decode_encChar, ih]

theorem hexDigitChar_props : ∀ x, x < 16 →
    isHexDigitChar (hexDigitChar x) = true ∧ hexVal (hexDigitChar x) = x ∧
    hexDigitChar x ≠ '+' ∧ hexDigitChar x ≠ '%' ∧ hexDigitChar x ≠ '&' ∧
    hexDigitChar x ≠ '=' ∧ hexDigitChar x ≠ '#' ∧ hexDigitChar x ≠ '?' := by
  decide

theorem safeByte_lt (b : Nat) (h : safeByte b = true) : b < 128 := by
  simp [safeByte] at h
  omega

theorem safeByte_char_props : ∀ b, b < 128 → safeByte b = true →
    Char.ofNat b ≠ '+' ∧ Char.ofNat b ≠ '%' ∧ Char.ofNat b ≠ '&' ∧
    Char.ofNat b ≠ '=' ∧ Char.ofNat b ≠ '#' ∧ Char.ofNat b ≠ '?' := by
  decide

theorem safeByte_false_of_ge (b : Nat) (h : 128 ≤ b) :
    safeByte b = false := by
  simp [safeByte]
  omega

/-- The `%XX` spelling of a byte list, as produced by `quote` for
non-safe bytes. -/
def pctEncode (B : List Nat) : PyStr :=
  (B.map fun b => ['%', hexDigitChar (b / 16), hexDigitChar (b % 16)]).flatten

theorem plusToSpace_nil : plusToSpace [] = [] := rfl

theorem plusToSpace_cons (c : Char) (t : PyStr) :
    plusToSpace (c :: t) = (if c = '+' then ' ' else c) :: plusToSpace t :=
  rfl

theorem plusToSpace_append (s t : PyStr) :
    plusToSpace (s ++ t) = plusToSpace s ++ plusToSpace t := by
  simp [plusToSpace]

theorem plusToSpace_pct (B : List Nat) (hB : ∀ b ∈ B, b < 256) :
    plusToSpace (pctEncode B) = pctEncode B := by
  induction B with
  | nil => rfl
  | cons b bs ih =>
    have hb : b < 256 := hB b (List.mem_cons_self _ _)
    have hbs : ∀ x ∈ bs, x < 256 := fun x hx => hB x (List.mem_cons_of_mem _ hx)
    have hsh : pctEncode (b :: bs)
        = '%' :: hexDigitChar (b / 16) :: hexDigitChar (b % 16) ::
          pctEncode bs := by
      simp [pctEncode]
    rw [hsh, plusToSpace_cons, plusToSpace_cons, plusToSpace_cons]
    rw [if_neg (by decide), if_neg (hexDigitChar_props (b / 16)
      (by omega)).2.2.1, if_neg (hexDigitChar_props (b % 16)
      (by omega)).2.2.1]
    rw [ih hbs]

theorem unquoteA_pct (B : List Nat) (hB : ∀ b ∈ B, b < 256) :
    ∀ (t : PyStr) (acc : List Nat),
      unquoteA (pctEncode B ++ t) acc = unquoteA t (acc ++ B) := by
  induction B with
  | nil => intro t acc; simp [pctEncode]
  | cons b bs ih =>
    intro t acc
    have hb : b < 256 := hB b (List.mem_cons_self _ _)
    have hbs : ∀ x ∈ bs, x < 256 := fun x hx => hB x (List.mem_cons_of_mem _ hx)
    have hsh : pctEncode (b :: bs) ++ t
        = '%' :: hexDigitChar (b / 16) :: hexDigitChar (b % 16) ::
          (pctEncode bs ++ t) := by
      simp [pctEncode]
    rw [hsh]
    rw [unquoteA_esc _ _ _ _ (hexDigitChar_props (b / 16) (by omega)).1
      (hexDigitChar_props (b % 16) (by omega)).1]
    rw [show 16 * hexVal (hexDigitChar (b / 16))
        + hexVal (hexDigitChar (b % 16)) = b by
      rw [(hexDigitChar_props (b / 16) (by omega)).2.1,
        (hexDigitChar_props (b % 16) (by omega)).2.1]
      omega]
    rw [ih hbs t (acc ++ [b])]
    simp

theorem quotePlus_nil : quotePlus [] = [] := rfl

theorem quotePlus_cons (c : Char) (rest : PyStr) :
    quotePlus (c :: rest)
      = ((utf8EncodeChar c).map quoteByte).flatten ++ quotePlus rest := by
  simp [quotePlus, utf8Encode]

theorem unquoteA_quotePlus :
    ∀ (s pre : PyStr),
      unquoteA (plusToSpace (quotePlus s)) (utf8Encode pre) = pre ++ s := by
  intro s
  induction s with
  | nil =>
    intro pre
    rw [quotePlus_nil, plusToSpace_nil, unquoteA_nil, utf8Decode_encode,
      List.append_nil]
  | cons c rest ih =>
    intro pre
    rw [quotePlus_cons, plusToSpace_append]
    by_cases hsafe : safeByte c.toNat = true
    · have hlt : c.toNat < 0x80 := safeByte_lt _ hsafe
      have he : utf8EncodeChar c = [c.toNat] := by
        simp only [utf8EncodeChar]
        rw [if_pos hlt]
      have hq1 : ((utf8EncodeChar c).map quoteByte).flatten
          = [Char.ofNat c.toNat] := by
        rw [he]
        simp [quoteByte, hsafe]
      have hprops := safeByte_char_props c.toNat hlt hsafe
      have hplus : c ≠ '+' := by
        rw [← Char.ofNat_toNat c]
        exact hprops.1
      have hpct : c ≠ '%' := by
        rw [← Char.ofNat_toNat c]
        exact hprops.2.1
      rw [hq1, Char.ofNat_toNat c, plusToSpace_cons, if_neg hplus,
        plusToSpace_nil, List.singleton_append]
      rw [unquoteA_lit _ _ _ hpct]
      rw [utf8Decode_encode]
      have ih0 := ih []
      rw [utf8Encode_nil] at ih0
      rw [ih0]
      simp
    · by_cases hsp : c.toNat = 32
      · have hc : c = ' ' := by
          rw [← Char.ofNat_toNat c, hsp]
        subst hc
        rw [show ((utf8EncodeChar ' ').map quoteByte).flatten = ['+']
          from by decide]
        rw [show plusToSpace ['+'] = [' '] from by decide,
          List.singleton_append]
        rw [unquoteA_lit _ _ _ (by decide)]
        rw [utf8Decode_encode]
        have ih0 := ih []
        rw [utf8Encode_nil] at ih0
        rw [ih0]
        simp
      · have hsf : safeByte c.toNat = false := by
          cases h : safeByte c.toNat
          · rfl
          · exact absurd h hsafe
        have hbytes : ∀ b ∈ utf8EncodeChar c, safeByte b = false ∧ b ≠ 32 := by
          by_cases hlt : c.toNat < 0x80
          · have he : utf8EncodeChar c = [c.toNat] := by
              simp only [utf8EncodeChar]
              rw [if_pos hlt]
            rw [he]
            intro b hb
            rw [List.mem_singleton] at hb
            subst hb
            exact ⟨hsf, hsp⟩
          · intro b hb
            have hge := utf8EncodeChar_ge c hlt b hb
            exact ⟨safeByte_false_of_ge b hge, by omega⟩
        have hmap : ((utf8EncodeChar c).map quoteByte).flatten
            = pctEncode (utf8EncodeChar c) := by
          unfold pctEncode
          congr 1
          apply List.map_congr_left
          intro b hb
          have hx := hbytes b hb
          unfold quoteByte
          rw [if_neg (by rw [hx.1]; exact Bool.false_ne_true), if_neg hx.2]
        rw [hmap, plusToSpace_pct _ (utf8EncodeChar_lt c)]
        rw [unquoteA_pct _ (utf8EncodeChar_lt c) _ _]
        have hacc : utf8Encode pre ++ utf8EncodeChar c
            = utf8Encode (pre ++ [c]) := by
          rw [utf8Encode_append]
          simp [utf8Encode]
        rw [hacc, ih (pre ++ [c])]
        simp

theorem unquotePlus_quotePlus (s : PyStr) : unquotePlus (quotePlus s) = s := by
  have h := unquoteA_quotePlus s []
  rw [utf8Encode_nil] at h
  exact h

theorem utf8Encode_lt (s : PyStr) : ∀ b ∈ utf8Encode s, b < 256 := by
  intro b hb
  simp only [utf8Encode, List.mem_flatten, List.mem_map] at hb
  obtain ⟨l, ⟨c, _, rfl⟩, hbl⟩ := hb
  exact utf8EncodeChar_lt c b hbl

theorem quoteByte_chars (b : Nat) (hb : b < 256) :
    ∀ ch ∈ quoteByte b, ch ≠ '&' ∧ ch ≠ '=' ∧ ch ≠ '#' ∧ ch ≠ '?' := by
  intro ch hch
  unfold quoteByte at hch
  split_ifs at hch with h1 h2
  · rw [List.mem_singleton] at hch
    subst hch
    have hp := safeByte_char_props b (safeByte_lt b h1) h1
    exact ⟨hp.2.2.1, hp.2.2.2.1, hp.2.2.2.2.1, hp.2.2.2.2.2⟩
  · rw [List.mem_singleton] at hch
    subst hch
    exact ⟨by decide, by decide, by decide, by decide⟩
  · simp only [List.mem_cons, List.not_mem_nil, or_false] at hch
    rcases hch with rfl | rfl | rfl
    · exact ⟨by decide, by decide, by decide, by decide⟩
    · have hp := hexDigitChar_props (b / 16) (by omega)
      exact ⟨hp.2.2.2.2.1, hp.2.2.2.2.2.1, hp.2.2.2.2.2.2.1,
        hp.2.2.2.2.2.2.2⟩
    · have hp := hexDigitChar_props (b % 16) (by omega)
      exact ⟨hp.2.2.2.2.1, hp.2.2.2.2.2.1, hp.2.2.2.2.2.2.1,
        hp.2.2.2.2.2.2.2⟩

theorem quotePlus_chars (s : PyStr) :
    ∀ ch ∈ quotePlus s, ch ≠ '&' ∧ ch ≠ '=' ∧ ch ≠ '#' ∧ ch ≠ '?' := by
  intro ch hch
  simp only [quotePlus, List.mem_flatten, List.mem_map] at hch
  obtain ⟨l, ⟨b, hbmem, rfl⟩, hchl⟩ := hch
  exact quoteByte_chars b (utf8Encode_lt s b hbmem) ch hchl

theorem splitOnChar_sepFree (sep : Char) :
    ∀ p : PyStr, (∀ ch ∈ p, ch ≠ sep) → splitOnChar sep p = [p] := by
  intro p
  induction p with
  | nil => intro _; rfl
  | cons c r ih =>
    intro h
    have hc : c ≠ sep := h c (List.mem_cons_self _ _)
    have hr : ∀ ch ∈ r, ch ≠ sep := fun ch hm => h ch (List.mem_cons_of_mem _ hm)
    simp only [splitOnChar]
    rw [if_neg hc, ih hr]

theorem splitOnChar_append (sep : Char) :
    ∀ (p : PyStr) (t : PyStr), (∀ ch ∈ p, ch ≠ sep) →
      splitOnChar sep (p ++ sep :: t) = p :: splitOnChar sep t := by
  intro p
  induction p with
  | nil =>
    intro t _
    simp only [List.nil_append, splitOnChar]
    simp
  | cons c p' ih =>
    intro t h
    have hc : c ≠ sep := h c (List.mem_cons_self _ _)
    have hp : ∀ ch ∈ p', ch ≠ sep := fun ch hm => h ch (List.mem_cons_of_mem _ hm)
    simp only [List.cons_append, splitOnChar, List.append_eq]
    rw [if_neg hc, ih t hp]

theorem takeWhile_middle {p : Char → Bool} :
    ∀ (x : PyStr) (c : Char) (y : PyStr), (∀ ch ∈ x, p ch = true) →
      p c = false →
      (x ++ c :: y).takeWhile p = x ∧ (x ++ c :: y).dropWhile p = c :: y := by
  intro x
  induction x with
  | nil =>
    intro c y _ hc
    simp only [List.nil_append, List.takeWhile_cons, List.dropWhile_cons, hc]
    simp
  | cons a x' ih =>
    intro c y h hc
    have ha : p a = true := h a (List.mem_cons_self _ _)
    have hx : ∀ ch ∈ x', p ch = true := fun ch hm => h ch (List.mem_cons_of_mem _ hm)
    obtain ⟨ht, hd⟩ := ih c y hx hc
    simp only [List.cons_append, List.takeWhile_cons, List.dropWhile_cons, ha]
    simp only [if_true]
    exact ⟨by rw [ht], by rw [hd]⟩

theorem intercalate_one (sep x : PyStr) : List.intercalate sep [x] = x := by
  simp [List.intercalate]

theorem intercalate_two (sep x z : PyStr) (rest : List PyStr) :
    List.intercalate sep (x :: z :: rest)
      = x ++ sep ++ List.intercalate sep (z :: rest) := by
  simp [List.intercalate, List.intersperse_cons_cons, List.append_assoc]

/-- The encoded `name=value` chunk for one pair. -/
def encPair (kv : PyStr × PyStr) : PyStr :=
  quotePlus kv.1 ++ '=' :: quotePlus kv.2

theorem encPair_no_amp (kv : PyStr × PyStr) : ∀ ch ∈ encPair kv, ch ≠ '&' := by
  intro ch hch
  unfold encPair at hch
  rcases List.mem_append.mp hch with h | h
  · exact (quotePlus_chars _ ch h).1
  · rcases List.mem_cons.mp h with rfl | h
    · decide
    · exact (quotePlus_chars _ ch h).1

theorem parse_piece (kv : PyStr × PyStr) :
    (if encPair kv = [] then none
     else
       match (encPair kv).dropWhile (· ≠ '=') with
       | _ :: value =>
         some (unquotePlus ((encPair kv).takeWhile (· ≠ '=')),
           unquotePlus value)
       | [] => some (unquotePlus (encPair kv), []))
      = some kv := by
  obtain ⟨k, v⟩ := kv
  have hne : encPair (k, v) ≠ [] := by
    unfold encPair
    simp
  rw [if_neg hne]
  have hmid := takeWhile_middle (p := fun ch => decide (ch ≠ '='))
    (quotePlus k) '=' (quotePlus v)
    (fun ch hm => by
      simp only [decide_eq_true_iff]
      exact (quotePlus_chars k ch hm).2.1)
    (by simp)
  unfold encPair
  rw [hmid.2]
  dsimp only
  rw [hmid.1, unquotePlus_quotePlus, unquotePlus_quotePlus]

theorem parse_qsl_urlencode : ∀ l, parse_qsl (urlencode l) = l := by
  intro l
  induction l with
  | nil => rfl
  | cons kv rest ih =>
    cases rest with
    | nil =>
      show parse_qsl (List.intercalate ['&'] [encPair kv]) = [kv]
      rw [intercalate_one]
      unfold parse_qsl
      rw [splitOnChar_sepFree '&' (encPair kv) (encPair_no_amp kv)]
      rw [List.filterMap_cons]
      simp only [parse_piece kv]
      rfl
    | cons kv₂ rest₂ =>
      show parse_qsl (List.intercalate ['&']
        (encPair kv :: encPair kv₂ :: (rest₂.map encPair))) = _
      rw [intercalate_two]
      rw [show encPair kv ++ ['&'] ++ List.intercalate ['&']
          (encPair kv₂ :: (rest₂.map encPair))
        = encPair kv ++ '&' :: List.intercalate ['&']
          (encPair kv₂ :: (rest₂.map encPair)) by
        rw [List.append_assoc, List.singleton_append]]
      unfold parse_qsl
      rw [splitOnChar_append '&' (encPair kv) _ (encPair_no_amp kv)]
      rw [List.filterMap_cons]
      simp only [parse_piece kv]
      exact congrArg (kv :: ·) ih

theorem takeWhile_all {p : Char → Bool} :
    ∀ l : PyStr, (∀ ch ∈ l, p ch = true) →
      l.takeWhile p = l ∧ l.dropWhile p = [] := by
  intro l h
  exact ⟨List.takeWhile_eq_self_iff.mpr h, List.dropWhile_eq_nil_iff.mpr h⟩

theorem mem_of_takeWhile {p : Char → Bool} {l : PyStr} {ch : Char}
    (h : ch ∈ l.takeWhile p) : ch ∈ l :=
  (List.takeWhile_sublist p).subset h

theorem dropWhile_shape {p : Char → Bool} :
    ∀ l : PyStr, l.dropWhile p = [] ∨
      ∃ c t, l.dropWhile p = c :: t ∧ p c = false := by
  intro l
  induction l with
  | nil => exact Or.inl rfl
  | cons a t ih =>
    rw [List.dropWhile_cons]
    by_cases ha : p a = true
    · rw [if_pos ha]; exact ih
    · rw [if_neg ha]
      exact Or.inr ⟨a, t, rfl, by revert ha; cases p a <;> simp⟩

/-- Scheme-and-netloc reduction of `urlsplit` on a URL of the shape
`scheme://rest`. -/
theorem urlsplit_with_netloc (sch S : PyStr)
    (hcolon : ∀ ch ∈ sch, ch ≠ ':')
    (hcond : sch ≠ [] ∧ sch.all schemeChar = true
      ∧ (sch.headD 'a').isAlpha = true)
    (hlower : sch.map Char.toLower = sch) :
    urlsplit (sch ++ ':' :: '/' :: '/' :: S) =
      ⟨sch, S.takeWhile notDelim,
        ((S.dropWhile notDelim).takeWhile (· ≠ '#')).takeWhile (· ≠ '?'),
        ((((S.dropWhile notDelim).takeWhile (· ≠ '#')).dropWhile
          (· ≠ '?'))).drop 1,
        ((S.dropWhile notDelim).dropWhile (· ≠ '#')).drop 1⟩ := by
  have hmid := takeWhile_middle (p := fun c => decide (c ≠ ':')) sch ':'
    ('/' :: '/' :: S)
    (fun ch hm => by
      simp only [decide_eq_true_iff]
      exact hcolon ch hm)
    (by simp)
  simp only [urlsplit]
  rw [hmid.1, hmid.2]
  rw [if_pos (show (':' :: '/' :: '/' :: S) ≠ [] ∧ sch ≠ []
      ∧ sch.all schemeChar = true ∧ (sch.headD 'a').isAlpha = true
    from ⟨by simp, hcond.1, hcond.2.1, hcond.2.2⟩)]
  simp only [hlower, List.drop_succ_cons, List.drop_zero]
  rw [if_pos (show ('/' :: '/' :: S).take 2 = ['/', '/'] by simp)]

/-- Scheme reduction of `urlsplit` on a URL of the shape `scheme:rest`
where `rest` does not start with `//`. -/
theorem urlsplit_no_netloc (sch S : PyStr)
    (hcolon : ∀ ch ∈ sch, ch ≠ ':')
    (hcond : sch ≠ [] ∧ sch.all schemeChar = true
      ∧ (sch.headD 'a').isAlpha = true)
    (hlower : sch.map Char.toLower = sch)
    (hS : S.take 2 ≠ ['/', '/']) :
    urlsplit (sch ++ ':' :: S) =
      ⟨sch, [], (S.takeWhile (· ≠ '#')).takeWhile (· ≠ '?'),
        ((S.takeWhile (· ≠ '#')).dropWhile (· ≠ '?')).drop 1,
        (S.dropWhile (· ≠ '#')).drop 1⟩ := by
  have hmid := takeWhile_middle (p := fun c => decide (c ≠ ':')) sch ':' S
    (fun ch hm => by
      simp only [decide_eq_true_iff]
      exact hcolon ch hm)
    (by simp)
  simp only [urlsplit]
  rw [hmid.1, hmid.2]
  rw [if_pos (show (':' :: S) ≠ [] ∧ sch ≠ []
      ∧ sch.all schemeChar = true ∧ (sch.headD 'a').isAlpha = true
    from ⟨by simp, hcond.1, hcond.2.1, hcond.2.2⟩)]
  simp only [hlower, List.drop_succ_cons, List.drop_zero]
  rw [if_neg hS]

theorem frag_split (P Q F : PyStr)
    (hP : ∀ ch ∈ P, ch ≠ '?' ∧ ch ≠ '#')
    (hQ : ∀ ch ∈ Q, ch ≠ '#' ∧ ch ≠ '?') :
    (P ++ '?' :: (Q ++ (if F = [] then [] else '#' :: F))).takeWhile
        (· ≠ '#') = P ++ '?' :: Q ∧
    ((P ++ '?' :: (Q ++ (if F = [] then [] else '#' :: F))).dropWhile
        (· ≠ '#')).drop 1 = F := by
  have hall : ∀ ch ∈ P ++ '?' :: Q, (fun c => decide (c ≠ '#')) ch = true := by
    intro ch hm
    simp only [decide_eq_true_iff]
    rcases List.mem_append.mp hm with h | h
    · exact (hP ch h).2
    · rcases List.mem_cons.mp h with rfl | h
      · decide
      · exact (hQ ch h).1
  by_cases hF : F = []
  · subst hF
    rw [if_pos rfl, List.append_nil]
    obtain ⟨ht, hd⟩ := takeWhile_all (P ++ '?' :: Q) hall
    exact ⟨ht, by rw [hd]; rfl⟩
  · rw [if_neg hF]
    have hsh : P ++ '?' :: (Q ++ '#' :: F) = (P ++ '?' :: Q) ++ '#' :: F := by
      simp [List.append_assoc]
    rw [hsh]
    have hmid := takeWhile_middle (p := fun c => decide (c ≠ '#'))
      (P ++ '?' :: Q) '#' F hall (by simp)
    exact ⟨hmid.1, by rw [hmid.2]; rfl⟩

theorem query_split (P Q : PyStr) (hP : ∀ ch ∈ P, ch ≠ '?') :
    (P ++ '?' :: Q).takeWhile (· ≠ '?') = P ∧
    ((P ++ '?' :: Q).dropWhile (· ≠ '?')).drop 1 = Q := by
  have hmid := takeWhile_middle (p := fun c => decide (c ≠ '?')) P '?' Q
    (fun ch hm => by
      simp only [decide_eq_true_iff]
      exact hP ch hm)
    (by simp)
  exact ⟨hmid.1, by rw [hmid.2]; rfl⟩

theorem netloc_split (N T : PyStr) (hN : ∀ ch ∈ N, notDelim ch = true)
    (hT : ∃ c t, T = c :: t ∧ notDelim c = false) :
    (N ++ T).takeWhile notDelim = N ∧ (N ++ T).dropWhile notDelim = T := by
  obtain ⟨c, t, rfl, hc⟩ := hT
  exact takeWhile_middle N c t hN hc

theorem take_one_slash (P : PyStr) (h : P.take 1 = ['/']) :
    ∃ P₂, P = '/' :: P₂ := by
  cases P with
  | nil => simp at h
  | cons a t =>
    simp only [List.take_succ_cons, List.take_zero] at h
    rw [show a = '/' by simpa using h]
    exact ⟨t, rfl⟩

theorem urlunsplit_netloc_shape (sch N P Q F : PyStr)
    (hsch : sch ≠ []) (hQ : Q ≠ [])
    (hc1 : N ≠ [] ∨ (P ≠ [] ∧ P.take 2 = ['/', '/']))
    (hPshape : P = [] ∨ P.take 1 = ['/']) :
    urlunsplit ⟨sch, N, P, Q, F⟩
      = sch ++ ':' :: '/' :: '/' ::
        (N ++ (P ++ '?' :: (Q ++ (if F = [] then [] else '#' :: F)))) := by
  have hinner : ¬ (P ≠ [] ∧ P.take 1 ≠ ['/']) := by
    rcases hPshape with rfl | h
    · simp
    · intro hx; exact hx.2 h
  simp only [urlunsplit]
  by_cases hF : F = []
  · rw [if_neg (show ¬ F ≠ [] by simp [hF])]
    rw [if_pos hQ, if_pos hsch, if_pos hc1, if_neg hinner]
    subst hF
    simp [List.append_assoc]
  · rw [if_pos hF]
    rw [if_pos hQ, if_pos hsch, if_pos hc1, if_neg hinner]
    rw [if_neg hF]
    simp [List.append_assoc]

theorem urlunsplit_no_netloc_shape (sch N P Q F : PyStr)
    (hsch : sch ≠ []) (hQ : Q ≠ [])
    (hc1 : ¬ (N ≠ [] ∨ (P ≠ [] ∧ P.take 2 = ['/', '/']))) :
    urlunsplit ⟨sch, N, P, Q, F⟩
      = sch ++ ':' :: (P ++ '?' :: (Q ++ (if F = [] then [] else '#' :: F)))
      := by
  simp only [urlunsplit]
  by_cases hF : F = []
  · rw [if_neg (show ¬ F ≠ [] by simp [hF])]
    rw [if_pos hQ, if_pos hsch, if_neg hc1]
    subst hF
    simp [List.append_assoc]
  · rw [if_pos hF]
    rw [if_pos hQ, if_pos hsch, if_neg hc1]
    rw [if_neg hF]
    simp [List.append_assoc]

/-- Re-splitting the URL built by `urlunsplit` recovers its components,
for components of the shape the program produces. -/
theorem urlsplit_urlunsplit (sch N P Q F : PyStr)
    (hsch : sch = "http".data ∨ sch = "https".data)
    (hN : ∀ ch ∈ N, notDelim ch = true)
    (hPshape : P = [] ∨ P.take 1 = ['/'])
    (hP : ∀ ch ∈ P, ch ≠ '?' ∧ ch ≠ '#')
    (hQne : Q ≠ [])
    (hQ : ∀ ch ∈ Q, ch ≠ '#' ∧ ch ≠ '?') :
    urlsplit (urlunsplit ⟨sch, N, P, Q, F⟩) = ⟨sch, N, P, Q, F⟩ := by
  have hcolon : ∀ ch ∈ sch, ch ≠ ':' := by
    rcases hsch with rfl | rfl <;> decide
  have hcond : sch ≠ [] ∧ sch.all schemeChar = true
      ∧ (sch.headD 'a').isAlpha = true := by
    rcases hsch with rfl | rfl <;> exact ⟨by decide, by decide, by decide⟩
  have hlower : sch.map Char.toLower = sch := by
    rcases hsch with rfl | rfl <;> decide
  have hfs := frag_split P Q F hP hQ
  have hqs := query_split P Q (fun ch hm => (hP ch hm).1)
  by_cases hc1 : N ≠ [] ∨ (P ≠ [] ∧ P.take 2 = ['/', '/'])
  · rw [urlunsplit_netloc_shape sch N P Q F hcond.1 hQne hc1 hPshape]
    rw [urlsplit_with_netloc sch _ hcolon hcond hlower]
    have hhead : ∃ c t,
        P ++ '?' :: (Q ++ (if F = [] then [] else '#' :: F)) = c :: t
          ∧ notDelim c = false := by
      rcases hPshape with rfl | hp1
      · exact ⟨'?', _, rfl, by decide⟩
      · obtain ⟨P₂, rfl⟩ := take_one_slash P hp1
        exact ⟨'/', P₂ ++ '?' :: (Q ++ (if F = [] then [] else '#' :: F)),
          by simp, by decide⟩
    have hns := netloc_split N
      (P ++ '?' :: (Q ++ (if F = [] then [] else '#' :: F))) hN hhead
    rw [hns.1, hns.2, hfs.1, hfs.2, hqs.1, hqs.2]
  · have hNnil : N = [] := by
      by_contra h
      exact hc1 (Or.inl h)
    rw [urlunsplit_no_netloc_shape sch N P Q F hcond.1 hQne hc1]
    have htake : (P ++ '?' :: (Q ++ (if F = [] then [] else '#' :: F))).take 2
        ≠ ['/', '/'] := by
      rcases hPshape with rfl | hp1
      · simp
      · obtain ⟨P₂, rfl⟩ := take_one_slash P hp1
        cases P₂ with
        | nil => simp
        | cons d t =>
          intro h
          simp only [List.cons_append, List.take_succ_cons, List.take_zero,
            List.append_eq] at h
          have hd : d = '/' := by simpa using h
          subst hd
          exact hc1 (Or.inr ⟨by simp, by simp⟩)
    rw [urlsplit_no_netloc sch _ hcolon hcond hlower htake]
    rw [hfs.1, hfs.2, hqs.1, hqs.2, hNnil]

theorem mem_intercalate_cases {ch : Char} {sep : PyStr} :
    ∀ L : List PyStr, ch ∈ List.intercalate sep L →
      ch ∈ sep ∨ ∃ x ∈ L, ch ∈ x := by
  intro L
  induction L with
  | nil => intro h; simp [List.intercalate] at h
  | cons x rest ih =>
    cases rest with
    | nil =>
      rw [intercalate_one]
      intro h
      exact Or.inr ⟨x, List.mem_cons_self _ _, h⟩
    | cons y r₂ =>
      rw [intercalate_two]
      intro h
      rcases List.mem_append.mp h with h₁ | h₁
      · rcases List.mem_append.mp h₁ with h₂ | h₂
        · exact Or.inr ⟨x, List.mem_cons_self _ _, h₂⟩
        · exact Or.inl h₂
      · rcases ih h₁ with h₂ | ⟨z, hz, hchz⟩
        · exact Or.inl h₂
        · exact Or.inr ⟨z, List.mem_cons_of_mem _ hz, hchz⟩

theorem urlencode_chars (l : List (PyStr × PyStr)) :
    ∀ ch ∈ urlencode l, ch ≠ '#' ∧ ch ≠ '?' := by
  intro ch hch
  rcases mem_intercalate_cases _ hch with h | ⟨x, hx, hchx⟩
  · rw [List.mem_singleton] at h
    subst h
    exact ⟨by decide, by decide⟩
  · rw [List.mem_map] at hx
    obtain ⟨kv, _, rfl⟩ := hx
    rcases List.mem_append.mp hchx with h | h
    · exact ⟨(quotePlus_chars _ ch h).2.2.1, (quotePlus_chars _ ch h).2.2.2⟩
    · rcases List.mem_cons.mp h with rfl | h
      · exact ⟨by decide, by decide⟩
      · exact ⟨(quotePlus_chars _ ch h).2.2.1, (quotePlus_chars _ ch h).2.2.2⟩

theorem urlencode_ne_nil (l : List (PyStr × PyStr)) (h : l ≠ []) :
    urlencode l ≠ [] := by
  cases l with
  | nil => exact absurd rfl h
  | cons kv rest =>
    cases rest with
    | nil =>
      show List.intercalate ['&'] [encPair kv] ≠ []
      rw [intercalate_one]
      unfold encPair
      simp
    | cons kv₂ r₂ =>
      show List.intercalate ['&']
        (encPair kv :: encPair kv₂ :: (r₂.map encPair)) ≠ []
      rw [intercalate_two]
      simp [encPair]

theorem resplit_core (u gid : PyStr)
    (hshape : ∃ sch R, (sch = "http".data ∨ sch = "https".data)
      ∧ u = sch ++ ':' :: '/' :: '/' :: R) :
    urlsplit (urlunsplit ⟨(urlsplit u).scheme, (urlsplit u).netloc,
        (urlsplit u).path,
        urlencode (parse_qsl (urlsplit u).query ++ [("group_id".data, gid)]),
        (urlsplit u).fragment⟩)
      = ⟨(urlsplit u).scheme, (urlsplit u).netloc, (urlsplit u).path,
          urlencode (parse_qsl (urlsplit u).query
            ++ [("group_id".data, gid)]),
          (urlsplit u).fragment⟩ := by
  obtain ⟨sch, R, hsch, rfl⟩ := hshape
  have hu := urlsplit_with_netloc sch R
    (by rcases hsch with rfl | rfl <;> decide)
    (by rcases hsch with rfl | rfl <;> exact ⟨by decide, by decide, by decide⟩)
    (by rcases hsch with rfl | rfl <;> decide)
  apply urlsplit_urlunsplit
  · rw [hu]; exact hsch
  · rw [hu]
    intro ch hm
    exact List.mem_takeWhile_imp hm
  · rw [hu]
    dsimp only
    rcases dropWhile_shape (p := notDelim) R with hd | ⟨c, t, hd, hc⟩
    · rw [hd]; left; rfl
    · rw [hd]
      have hc3 : c = '/' ∨ c = '?' ∨ c = '#' := by
        revert hc
        unfold notDelim
        simp
        tauto
      rcases hc3 with rfl | rfl | rfl
      · right
        rw [List.takeWhile_cons, if_pos (by decide),
          List.takeWhile_cons, if_pos (by decide)]
        simp
      · left
        rw [List.takeWhile_cons, if_pos (by decide),
          List.takeWhile_cons, if_neg (by decide)]
      · left
        rw [List.takeWhile_cons, if_neg (by decide)]
        rfl
  · rw [hu]
    dsimp only
    intro ch hm
    constructor
    · have := List.mem_takeWhile_imp hm
      simpa using this
    · have hm2 := mem_of_takeWhile hm
      have := List.mem_takeWhile_imp hm2
      simpa using this
  · exact urlencode_ne_nil _ (by simp)
  · exact urlencode_chars _

/-- Every character of a netloc produced by the `urlsplit` core occurs in
the URL it was split from. -/
theorem urlsplit_netloc_sub (u : PyStr) (c : Char)
    (hc : c ∈ (urlsplit u).netloc) : c ∈ u := by
  have key : ∀ v : PyStr, v.Sublist u → c ∈ ((v.drop 2).takeWhile notDelim)
      → c ∈ u := fun v hvu hv =>
    hvu.subset ((List.drop_sublist 2 v).subset (mem_of_takeWhile hv))
  by_cases h1 : (u.dropWhile (· ≠ ':')) ≠ [] ∧ (u.takeWhile (· ≠ ':')) ≠ []
      ∧ (u.takeWhile (· ≠ ':')).all schemeChar = true
      ∧ ((u.takeWhile (· ≠ ':')).headD 'a').isAlpha = true
  · simp only [urlsplit, if_pos h1] at hc
    by_cases h2 : ((u.dropWhile (· ≠ ':')).drop 1).take 2 = ['/', '/']
    · simp only [if_pos h2] at hc
      exact key _ ((List.drop_sublist 1 _).trans (List.dropWhile_sublist _)) hc
    · simp only [if_neg h2] at hc
      exact absurd hc (List.not_mem_nil c)
  · simp only [urlsplit, if_neg h1] at hc
    by_cases h2 : u.take 2 = ['/', '/']
    · simp only [if_pos h2] at hc
      exact key u (List.Sublist.refl u) hc
    · simp only [if_neg h2] at hc
      exact absurd hc (List.not_mem_nil c)

/-- The WHATWG cleanup is the identity on a URL whose first character is
not a control character or space and which holds no tab, CR or LF. -/
theorem whatwgClean_id (c0 : Char) (t0 : PyStr)
    (hhead : ¬ c0.toNat ≤ 0x20)
    (hcl : ∀ c ∈ c0 :: t0, ¬ (c = '\t' ∨ c = '\r' ∨ c = '\n')) :
    whatwgClean (c0 :: t0) = c0 :: t0 := by
  have hfalse : decide (c0.toNat ≤ 0x20) = false := decide_eq_false hhead
  have hdrop : (c0 :: t0).dropWhile (fun c => decide (c.toNat ≤ 0x20))
      = c0 :: t0 := by
    simp [List.dropWhile_cons, hfalse]
  unfold whatwgClean
  rw [hdrop]
  refine List.filter_eq_self.mpr ?_
  intro c hcm
  simpa using hcl c hcm

/-- On a clean caller-supplied reference — ASCII, free of tab/CR/LF and of
square brackets — the real `urlsplit` raises no `ValueError`, strips
nothing, and agrees with the parsing core, for every behaviour of the
external host validators. -/
theorem urlsplitPy_clean (s : PyStr)
    (hclean : ∀ c ∈ s, c.toNat < 128
      ∧ ¬ (c = '\t' ∨ c = '\r' ∨ c = '\n' ∨ c = '[' ∨ c = ']'))
    (checkHost checkNet : PyStr → Except PyStr Unit) :
    urlsplitPy checkHost checkNet (normalize_url s)
      = .ok (urlsplit (normalize_url s)) := by
  have hmem : ∀ c ∈ normalize_url s, c.toNat < 128
      ∧ ¬ (c = '\t' ∨ c = '\r' ∨ c = '\n' ∨ c = '[' ∨ c = ']') := by
    intro c hcm
    unfold normalize_url at hcm
    by_cases hp : "http://".data.isPrefixOf s = true
        ∨ "https://".data.isPrefixOf s = true
    · rw [if_pos hp] at hcm
      exact hclean c hcm
    · rw [if_neg hp] at hcm
      rcases List.mem_append.mp hcm with h | h
      · have h' : c ∈ (['h', 't', 't', 'p', 's', ':', '/', '/'] : List Char) :=
          h
        simp only [List.mem_cons, List.not_mem_nil, or_false] at h'
        rcases h' with rfl | rfl | rfl | rfl | rfl | rfl | rfl | rfl <;>
          exact ⟨by decide, by decide⟩
      · exact hclean c h
  have hhead : ∃ t, normalize_url s = 'h' :: t := by
    unfold normalize_url
    by_cases hp : "http://".data.isPrefixOf s = true
        ∨ "https://".data.isPrefixOf s = true
    · rw [if_pos hp]
      rcases hp with hp | hp
      · obtain ⟨r, hr⟩ := isPrefixOf_true.mp hp
        exact ⟨'t' :: 't' :: 'p' :: ':' :: '/' :: '/' :: r, by rw [← hr]; rfl⟩
      · obtain ⟨r, hr⟩ := isPrefixOf_true.mp hp
        exact ⟨'t' :: 't' :: 'p' :: 's' :: ':' :: '/' :: '/' :: r,
          by rw [← hr]; rfl⟩
    · rw [if_neg hp]
      exact ⟨"ttps://".data ++ s, rfl⟩
  have hw : whatwgClean (normalize_url s) = normalize_url s := by
    obtain ⟨t, ht⟩ := hhead
    rw [ht]
    refine whatwgClean_id 'h' t (by decide) ?_
    rw [← ht]
    intro c hcm hbad
    exact (hmem c hcm).2 (by tauto)
  have hnets : ∀ c ∈ (urlsplit (normalize_url s)).netloc, c.toNat < 128
      ∧ ¬ (c = '\t' ∨ c = '\r' ∨ c = '\n' ∨ c = '[' ∨ c = ']') :=
    fun c hcn => hmem c (urlsplit_netloc_sub (normalize_url s) c hcn)
  have hnb1 : ¬ '[' ∈ (urlsplit (normalize_url s)).netloc := fun hm =>
    (hnets '[' hm).2 (by tauto)
  have hnb2 : ¬ ']' ∈ (urlsplit (normalize_url s)).netloc := fun hm =>
    (hnets ']' hm).2 (by tauto)
  have ha : asciiNetloc (urlsplit (normalize_url s)).netloc = true := by
    unfold asciiNetloc
    refine Bool.or_eq_true _ _ |>.mpr (Or.inr ?_)
    rw [List.all_eq_true]
    intro c hcm
    exact decide_eq_true (hnets c hcm).1
  have hc1 : ¬ (('[' ∈ (urlsplit (normalize_url s)).netloc
        ∧ ¬ ']' ∈ (urlsplit (normalize_url s)).netloc)
      ∨ (']' ∈ (urlsplit (normalize_url s)).netloc
        ∧ ¬ '[' ∈ (urlsplit (normalize_url s)).netloc)) := by
    rintro (⟨h, _⟩ | ⟨h, _⟩)
    · exact hnb1 h
    · exact hnb2 h
  have hc2 : ¬ ('[' ∈ (urlsplit (normalize_url s)).netloc
      ∧ ']' ∈ (urlsplit (normalize_url s)).netloc) := fun h => hnb1 h.1
  simp only [urlsplitPy, hw]
  rw [if_neg hc1, if_neg hc2, if_pos ha]

/-- One HTTP exchange as seen by `urllib`: either the server replied
(status code, `Content-Type` header, optional `Location` header, body), or
the attempt raised an exception before any response was obtained (DNS
failure, connection refused, TLS handshake failure, timeout, ...),
carrying the exception type name and message.  Reading the response body
is assumed to succeed (the inner `try` around `e.read()` in the program is
then never exercised). -/
inductive ExchangeResult where
  | reply (status : Int) (contentType : PyStr) (location : Option PyStr)
      (body : PyStr)
  | raised (name msg : PyStr)
  deriving Repr, DecidableEq

/-- Result of `urllib.request.urlopen`: a 2xx response object, a raised
`urllib.error.HTTPError`, or another raised exception. -/
inductive UrlopenResult where
  | ok (status : Int) (contentType : PyStr) (body : PyStr)
  | httpError (code : Int) (body : PyStr)
  | raised (name msg : PyStr)
  deriving Repr, DecidableEq

/-- Model of `urllib.request.urlopen` with the default opener, driven by a
network oracle `net url method`; also returns the trace of exchanges
performed, as `(url, method)` pairs.  Modelled from the documented CPython
behaviour of the default handler chain: `HTTPErrorProcessor` raises
`HTTPError` for any status outside 2xx; before that, `HTTPRedirectHandler`
handles 301/302/303/307/308 responses carrying a `Location` header — its
`redirect_request` permits the redirect for methods GET/HEAD, and for POST
only on 301/302/303, and builds the new `Request` without the body, so the
re-issued request uses method GET; a refused redirect and any other error
status raise `HTTPError`; at most `maxRedirects` redirects are followed,
after which `HTTPError` is raised. -/
def urlopenGo (net : PyStr → PyStr → ExchangeResult) :
    Nat → PyStr → PyStr → UrlopenResult × List (PyStr × PyStr)
  | fuel, url, method =>
    match net url method with
    | .raised n m => (.raised n m, [(url, method)])
    | .reply status ctype loc body =>
      if 200 ≤ status ∧ status < 300 then
        (.ok status ctype body, [(url, method)])
      else if status = 301 ∨ status = 302 ∨ status = 303 ∨ status = 307
          ∨ status = 308 then
        match loc with
        | none => (.httpError status body, [(url, method)])
        | some l =>
          if (method = "GET".data ∨ method = "HEAD".data) ∨
              ((status = 301 ∨ status = 302 ∨ status = 303) ∧
                method = "POST".data) then
            match fuel with
            | 0 => (.httpError status body, [(url, method)])
            | fuel' + 1 =>
              let r := urlopenGo net fuel' l "GET".data
              (r.1, (url, method) :: r.2)
          else (.httpError status body, [(url, method)])
      else (.httpError status body, [(url, method)])

/-- CPython `HTTPRedirectHandler.max_redirections`. -/
def maxRedirects : Nat := 10

def urlopen (net : PyStr → PyStr → ExchangeResult) (url method : PyStr) :
    UrlopenResult × List (PyStr × PyStr) :=
  urlopenGo net maxRedirects url method

/-- Body field of the reporter's response record: structured data from
`json.loads`, or raw text. -/
inductive RespBody where
  | parsed (data : PyStr)
  | raw (text : PyStr)
  deriving Repr, DecidableEq

def RespBody.isParsed : RespBody → Bool
  | .parsed _ => true
  | .raw _ => false

/-- The dictionary returned by `send_post` (lines 169–196). -/
structure ReportResponse where
  requested_url : PyStr
  method_sent : PyStr
  status_code : Int
  group_id : PyStr
  response_json : RespBody
  deriving Repr, DecidableEq

/-- `send_post` (lines 124–196): build the final URL, POST the JSON body
via `urlopen`, and classify the outcome.  `loads` is the `json.loads`
oracle (`.error msg` models a raised `JSONDecodeError`, which the
surrounding `try` turns into the generic exception record).  The TLS
context and the timeout are absorbed into the network oracle.  The model
also returns the exchange trace.  The function is total: every oracle
outcome produces a record, no fault propagates. -/
def send_post (net : PyStr → PyStr → ExchangeResult)
    (loads : PyStr → Except PyStr PyStr) (url group_id : PyStr) :
    ReportResponse × List (PyStr × PyStr) :=
  let final_url := build_final_url url group_id
  let r := urlopen net final_url "POST".data
  let record :=
    match r.1 with
    | .ok status ctype body =>
      if "application/json".data.isPrefixOf ctype then
        match loads body with
        | .ok j => ⟨final_url, "POST".data, status, group_id, .parsed j⟩
        | .error m =>
          ⟨final_url, "POST".data, -1, group_id,
            .raw ("JSONDecodeError: ".data ++ m)⟩
      else ⟨final_url, "POST".data, status, group_id, .raw body⟩
    | .httpError code body =>
      ⟨final_url, "POST".data, code, group_id, .raw body⟩
    | .raised name msg =>
      ⟨final_url, "POST".data, -1, group_id,
        .raw (name ++ ": ".data ++ msg)⟩
  (record, r.2)

def loadsOk : PyStr → Except PyStr PyStr := fun s => .ok s

example :
    (send_post (fun _ _ => .reply 200 "application/json".data none "42".data)
      loadsOk "example.com/api".data "7".data).1.response_json
      = .parsed "42".data := by decide

example :
    (send_post (fun _ _ => .raised "URLError".data "refused".data)
      loadsOk "example.com/api".data "7".data).1.status_code = -1 := by decide

/-- A server that answers every request with `404`, content type
`application/json` and body `42` (valid JSON). -/
def net404json : PyStr → PyStr → ExchangeResult := fun _ _ =>
  .reply 404 "application/json".data none "42".data

/-- C4 counterexample: a 404 response whose content type is
`application/json` is returned as raw text, not parsed — the parsing rule
is not applied to HTTP-error responses, refuting the uniformity clause. -/
theorem C4_response_parsing_counterexample :
    (send_post net404json loadsOk "example.com/api".data
      "7".data).1.status_code = 404 ∧
    (send_post net404json loadsOk "example.com/api".data
      "7".data).1.response_json = .raw "42".data ∧
    ((send_post net404json loadsOk "example.com/api".data
      "7".data).1.response_json).isParsed = false ∧
    loadsOk "42".data = .ok "42".data := by
  refine ⟨by decide, by decide, by decide, rfl⟩

/-- C4 as amended: the status code is surfaced verbatim, but the
content-type-driven JSON parsing applies only to 2xx responses (and only
when `json.loads` succeeds); the body of an HTTP-error response is always
returned as raw text, whatever its content type. -/
theorem C4_response_classification (net : PyStr → PyStr → ExchangeResult)
    (loads : PyStr → Except PyStr PyStr) (url gid : PyStr) :
    (∀ status ctype body,
      (urlopen net (build_final_url url gid) "POST".data).1
        = .ok status ctype body →
      (∀ j, "application/json".data.isPrefixOf ctype = true →
        loads body = .ok j →
        (send_post net loads url gid).1.status_code = status ∧
        (send_post net loads url gid).1.response_json = .parsed j) ∧
      ("application/json".data.isPrefixOf ctype = false →
        (send_post net loads url gid).1.status_code = status ∧
        (send_post net loads url gid).1.response_json = .raw body)) ∧
    (∀ code body,
      (urlopen net (build_final_url url gid) "POST".data).1
        = .httpError code body →
      (send_post net loads url gid).1.status_code = code ∧
      (send_post net loads url gid).1.response_json = .raw body) := by
  constructor
  · intro status ctype body h
    constructor
    · intro j hct hl
      simp only [send_post]
      rw [h]
      simp only [hct, if_true]
      rw [hl]
      exact ⟨rfl, rfl⟩
    · intro hct
      simp only [send_post]
      rw [h]
      simp only [hct]
      exact ⟨rfl, rfl⟩
  · intro code body h
    simp only [send_post]
    rw [h]
    exact ⟨rfl, rfl⟩

theorem C4_response_classification_witness :
    (send_post (fun _ _ => .reply 200 "application/json".data none
        "42".data) loadsOk "example.com/api".data "7".data).1.status_code
      = 200 ∧
    (send_post (fun _ _ => .reply 200 "application/json".data none
        "42".data) loadsOk "example.com/api".data
        "7".data).1.response_json = .parsed "42".data ∧
    (send_post net404json loadsOk "example.com/api".data
      "7".data).1.response_json = .raw "42".data := by
  refine ⟨?_, ?_, ?_⟩
  · exact (((C4_response_classification
      (fun _ _ => .reply 200 "application/json".data none "42".data)
      loadsOk "example.com/api".data "7".data).1 200 "application/json".data
      "42".data (by decide)).1 "42".data (by decide) rfl).1
  · exact (((C4_response_classification
      (fun _ _ => .reply 200 "application/json".data none "42".data)
      loadsOk "example.com/api".data "7".data).1 200 "application/json".data
      "42".data (by decide)).1 "42".data (by decide) rfl).2
  · exact ((C4_response_classification net404json loadsOk
      "example.com/api".data "7".data).2 404 "42".data (by decide)).2

/-- C5: any transport-level failure (the oracle raises instead of
replying) at any point of the request is caught and yields the sentinel
record: status code `-1` and the non-empty body
`"<ExceptionName>: <message>"`; the model being a total function, no
fault propagates to the caller. -/
theorem C5_transport_failure_sentinel (net : PyStr → PyStr → ExchangeResult)
    (loads : PyStr → Except PyStr PyStr) (url gid name msg : PyStr)
    (h : (urlopen net (build_final_url url gid) "POST".data).1
      = .raised name msg)
    (hname : name ≠ []) :
    (send_post net loads url gid).1.status_code = -1 ∧
    (send_post net loads url gid).1.response_json
      = .raw (name ++ ": ".data ++ msg) ∧
    name ++ ": ".data ++ msg ≠ [] := by
  refine ⟨?_, ?_, ?_⟩
  · simp only [send_post]
    rw [h]
  · simp only [send_post]
    rw [h]
  · cases name with
    | nil => exact absurd rfl hname
    | cons a t => simp

theorem C5_transport_failure_sentinel_witness :
    (send_post (fun _ _ => .raised "URLError".data "refused".data) loadsOk
      "example.com/api".data "7".data).1.status_code = -1 ∧
    (send_post (fun _ _ => .raised "URLError".data "refused".data) loadsOk
      "example.com/api".data "7".data).1.response_json
      = .raw ("URLError".data ++ ": ".data ++ "refused".data) := by
  constructor
  · exact (C5_transport_failure_sentinel
      (fun _ _ => .raised "URLError".data "refused".data) loadsOk
      "example.com/api".data "7".data "URLError".data "refused".data
      (by decide) (by decide)).1
  · exact (C5_transport_failure_sentinel
      (fun _ _ => .raised "URLError".data "refused".data) loadsOk
      "example.com/api".data "7".data "URLError".data "refused".data
      (by decide) (by decide)).2.1

/-- A server that redirects the POST with `302` and serves the target to a
GET request. -/
def net302 : PyStr → PyStr → ExchangeResult := fun url method =>
  if url = build_final_url "example.com/api".data "7".data
      ∧ method = "POST".data then
    .reply 302 [] (some "https://example.com/next".data) []
  else if url = "https://example.com/next".data ∧ method = "GET".data then
    .reply 200 "text/plain".data none "moved".data
  else .raised "URLError".data "unreachable".data

/-- C9 counterexample: a `302` answer to the POST is silently followed — 
the exchange trace shows a second request with method `GET` — and the
caller receives a `200` record still labelled `method_sent = POST`, with
no warning.  Redirect-following is not disabled. -/
theorem C9_redirect_counterexample :
    (send_post net302 loadsOk "example.com/api".data "7".data).2
      = [(build_final_url "example.com/api".data "7".data, "POST".data),
         ("https://example.com/next".data, "GET".data)] ∧
    (send_post net302 loadsOk "example.com/api".data
      "7".data).1.status_code = 200 ∧
    (send_post net302 loadsOk "example.com/api".data
      "7".data).1.method_sent = "POST".data := by
  refine ⟨by decide, by decide, by decide⟩

/-- One step of the redirect loop: a 301/302/303 reply to a POST that
carries a `Location` is followed, the re-issued request using method GET
and one unit of fuel. -/
theorem urlopenGo_redirect_followed (net : PyStr → PyStr → ExchangeResult)
    (n : Nat) (url : PyStr) (status : Int) (ctype l body : PyStr)
    (h : net url "POST".data = .reply status ctype (some l) body)
    (hs : status = 301 ∨ status = 302 ∨ status = 303) :
    urlopenGo net (n + 1) url "POST".data
      = ((urlopenGo net n l "GET".data).1,
         (url, "POST".data) :: (urlopenGo net n l "GET".data).2) := by
  have hno2xx : ¬ (200 ≤ status ∧ status < 300) := by
    rcases hs with rfl | rfl | rfl <;> omega
  have hr5 : status = 301 ∨ status = 302 ∨ status = 303 ∨ status = 307
      ∨ status = 308 := by tauto
  rw [urlopenGo, h]
  simp only []
  rw [if_neg hno2xx, if_pos hr5]
  split
  · rfl
  · rename_i hc
    exact absurd (Or.inr ⟨hs, trivial⟩) hc

/-- One step of the redirect loop: a 307/308 reply to a POST is not
followed; the default handler raises `HTTPError`. -/
theorem urlopenGo_redirect_refused (net : PyStr → PyStr → ExchangeResult)
    (fuel : Nat) (url : PyStr) (status : Int) (ctype l body : PyStr)
    (h : net url "POST".data = .reply status ctype (some l) body)
    (hs : status = 307 ∨ status = 308) :
    urlopenGo net fuel url "POST".data
      = (.httpError status body, [(url, "POST".data)]) := by
  have hno2xx : ¬ (200 ≤ status ∧ status < 300) := by
    rcases hs with rfl | rfl <;> omega
  have hr5 : status = 301 ∨ status = 302 ∨ status = 303 ∨ status = 307
      ∨ status = 308 := by tauto
  rw [urlopenGo, h]
  simp only []
  rw [if_neg hno2xx, if_pos hr5]
  split
  · rename_i hc
    rcases hc with (hx | hx) | ⟨hx, _⟩
    · exact absurd hx (by decide)
    · exact absurd hx (by decide)
    · rcases hs with rfl | rfl <;> rcases hx with hx | hx | hx <;>
        exact absurd hx (by decide)
  · rfl

/-- Every branch of `send_post` stamps the record with
`method_sent = "POST"`, whatever the network did. -/
theorem send_post_method (net : PyStr → PyStr → ExchangeResult)
    (loads : PyStr → Except PyStr PyStr) (url gid : PyStr) :
    (send_post net loads url gid).1.method_sent = "POST".data := by
  simp only [send_post]
  cases (urlopen net (build_final_url url gid) "POST".data).1 with
  | ok status ctype body =>
    dsimp only
    cases hb : "application/json".data.isPrefixOf ctype with
    | false => simp [hb]
    | true =>
      simp only [hb, if_true]
      cases loads body <;> rfl
  | httpError code body => rfl
  | raised name msg => rfl

/-- C9 as amended: with `urllib`'s default opener, a 301/302/303 response
to the POST that carries a `Location` is silently re-requested with
method `GET` (the body is dropped), while 307/308 redirects are refused
for POST and surface as an `HTTPError` record with that status code. -/
theorem C9_redirect_following (net : PyStr → PyStr → ExchangeResult)
    (loads : PyStr → Except PyStr PyStr) (url gid ctype body l : PyStr) :
    (∀ status : Int, (status = 301 ∨ status = 302 ∨ status = 303) →
      net (build_final_url url gid) "POST".data
        = .reply status ctype (some l) body →
      (send_post net loads url gid).2
        = (build_final_url url gid, "POST".data)
          :: (urlopenGo net 9 l "GET".data).2 ∧
      (send_post net loads url gid).1.method_sent = "POST".data) ∧
    (∀ status : Int, (status = 307 ∨ status = 308) →
      net (build_final_url url gid) "POST".data
        = .reply status ctype (some l) body →
      (send_post net loads url gid).1.status_code = status ∧
      (send_post net loads url gid).1.response_json = .raw body) := by
  constructor
  · intro status hs h
    have hst : urlopen net (build_final_url url gid) "POST".data
        = ((urlopenGo net 9 l "GET".data).1,
           (build_final_url url gid, "POST".data)
             :: (urlopenGo net 9 l "GET".data).2) := by
      have h10 : maxRedirects = 9 + 1 := rfl
      rw [urlopen, h10]
      exact urlopenGo_redirect_followed net 9 _ status ctype l body h hs
    constructor
    · simp only [send_post]
      rw [hst]
    · exact send_post_method net loads url gid
  · intro status hs h
    have hst : urlopen net (build_final_url url gid) "POST".data
        = (.httpError status body,
           [(build_final_url url gid, "POST".data)]) := by
      rw [urlopen]
      exact urlopenGo_redirect_refused net maxRedirects _ status ctype l body
        h hs
    constructor
    · simp only [send_post]
      rw [hst]
    · simp only [send_post]
      rw [hst]

theorem C9_redirect_following_witness :
    (send_post net302 loadsOk "example.com/api".data "7".data).1.method_sent
      = "POST".data ∧
    (send_post (fun _ _ => .reply 307 [] (some "https://x".data) "b".data)
      loadsOk "example.com/api".data "7".data).1.status_code = 307 := by
  constructor
  · exact ((C9_redirect_following net302 loadsOk "example.com/api".data
      "7".data [] [] "https://example.com/next".data).1 302
      (Or.inr (Or.inl rfl)) (by decide)).2
  · exact ((C9_redirect_following
      (fun _ _ => .reply 307 [] (some "https://x".data) "b".data) loadsOk
      "example.com/api".data "7".data [] "b".data "https://x".data).2 307
      (Or.inl rfl) (by decide)).1

end ClientService
